import Mathlib

/-!
Verification of the NorthStar goal-tracking core: a shallow embedding of the
period calculator, the task-list parser/updater, the structured focus-content
parser/serializer, the reflection-section scanner, the goal-tree builder and
the task-toggle route, together with proofs settling the frozen claims.

JavaScript strings are modelled as `List Char` (one entry per Unicode code
point; all the scanned constructs live outside surrogate subtleties).  Calendar
dates are modelled as civil triples `(year, month, day)` with day-resolution
timestamps: every comparison the code performs compares either two midnights or
a midnight against a 23:59:59.999 end-of-day, so ordering by day number is
exact.
-/

namespace NS

/-- JS strings as lists of code points. -/
abbrev Str := List Char

/-- The JavaScript `\s` / `String.prototype.trim` whitespace class
(ASCII whitespace, NBSP, Unicode space separators, LS/PS, BOM). -/
def jsWs (c : Char) : Bool :=
  c == ' ' || c == '\t' || c == '\n' || c == '\r' || c == '\x0b' || c == '\x0c' ||
  c == '\u00A0' || c == '\u1680' || (('\u2000' ≤ c) && (c ≤ '\u200A')) ||
  c == '\u2028' || c == '\u2029' || c == '\u202F' || c == '\u205F' ||
  c == '\u3000' || c == '\uFEFF'

/-- `String.prototype.trimStart`. -/
def trimL (s : Str) : Str := s.dropWhile jsWs

/-- `String.prototype.trimEnd`. -/
def trimR (s : Str) : Str := (s.reverse.dropWhile jsWs).reverse

/-- `String.prototype.trim`. -/
def trimS (s : Str) : Str := trimR (trimL s)

/-- `content.split('\n')`. -/
def splitLines : Str → List Str
  | [] => [[]]
  | c :: rest =>
    if c = '\n' then [] :: splitLines rest
    else
      match splitLines rest with
      | l :: ls => (c :: l) :: ls
      | [] => [[c]]

/-- `lines.join('\n')`. -/
def joinLines : List Str → Str
  | [] => []
  | [l] => l
  | l :: l' :: ls => l ++ '\n' :: joinLines (l' :: ls)

theorem splitLines_ne_nil (s : Str) : splitLines s ≠ [] := by
  induction s with
  | nil => simp [splitLines]
  | cons c rest ih =>
    simp only [splitLines]
    split
    · simp
    · cases h : splitLines rest with
      | nil => simp
      | cons l ls => simp

theorem joinLines_splitLines (s : Str) : joinLines (splitLines s) = s := by
  induction s with
  | nil => rfl
  | cons c rest ih =>
    simp only [splitLines]
    split
    · subst_vars
      cases h : splitLines rest with
      | nil => exact absurd h (splitLines_ne_nil rest)
      | cons l ls =>
        rw [h] at ih
        simp [joinLines, ih]
    · cases h : splitLines rest with
      | nil => exact absurd h (splitLines_ne_nil rest)
      | cons l ls =>
        rw [h] at ih
        cases ls with
        | nil => simpa [joinLines] using congrArg (c :: ·) ih
        | cons l' ls' => simpa [joinLines] using congrArg (c :: ·) ih

/-- `s.startsWith(p)`. -/
def startsWithS (p s : Str) : Bool := p.isPrefixOf s

/-! ## Task list parser / updater (src/lib/goals.ts)

Both `parseTasks` and `updateTaskInContent` scan lines against the shape
`[-*]\s*\[([ xX])\]\s*(.+)$`.  The regex is deterministic: `\s*` before `[`
must stop at the first non-whitespace character (which has to be `[`), and
the trailing `\s*(.+)$` only requires at least one character after `]`.
`checkboxSplit` returns the decomposition `(g1, b, r2)` of a matching line
`g1 ++ b :: ']' :: r2` where `g1` is the update regex's first capture group
(`[-*]\s*\[`), `b` the checkbox character and `']' :: r2` the third group. -/
def checkboxSplit (l : Str) : Option (Str × Char × Str) :=
  match l with
  | [] => none
  | c :: rest =>
    if c == '-' || c == '*' then
      match rest.dropWhile jsWs with
      | '[' :: b :: ']' :: r2 =>
        if (b == ' ' || b == 'x' || b == 'X') && !r2.isEmpty then
          some (c :: rest.takeWhile jsWs ++ ['['], b, r2)
        else none
      | _ => none
    else none

/-- A matching line is exactly `g1 ++ b :: ']' :: r2`. -/
theorem checkboxSplit_decomp {l : Str} {g1 : Str} {b : Char} {r2 : Str}
    (h : checkboxSplit l = some (g1, b, r2)) : l = g1 ++ b :: ']' :: r2 := by
  match l with
  | [] => simp [checkboxSplit] at h
  | c :: rest =>
    simp only [checkboxSplit] at h
    split at h
    · rename_i hc
      split at h
      · rename_i x b' r2' heq
        split at h
        · simp only [Option.some.injEq, Prod.mk.injEq] at h
          obtain ⟨h1, h2, h3⟩ := h
          subst h1 h2 h3
          have hr : rest = rest.takeWhile jsWs ++ '[' :: b' :: ']' :: r2' := by
            conv_lhs => rw [← List.takeWhile_append_dropWhile jsWs rest]
            rw [heq]
          conv_lhs => rw [hr]
          simp
        · exact absurd h (by simp)
      · exact absurd h (by simp)
    · exact absurd h (by simp)

/-- A checkbox line never begins with `#` (so the `### ` section-header skip in
`parseTasks` can never hide a task line from the update scan). -/
theorem checkboxSplit_of_hash {l : Str} (h : startsWithS "### ".toList l) :
    checkboxSplit l = none := by
  match l with
  | [] => exact absurd h (by decide)
  | c :: rest =>
    have hpre : "### ".toList <+: c :: rest := by
      simpa [startsWithS, List.isPrefixOf_iff_prefix] using h
    obtain ⟨t, ht⟩ := hpre
    have hc : c = '#' := by
      have hh := congrArg (fun x => x.head?) ht
      simpa using hh.symm
    subst hc
    simp [checkboxSplit]

/-- `Task` record (src/lib/goals.ts, `parseTasks`). `sectionName` mirrors the
optional `section` field. -/
structure Task where
  id : String
  text : Str
  completed : Bool
  sectionName : Option Str
deriving DecidableEq, Repr

/-- Scanner of `parseTasks`: tracks the current `### ` section and the running
task counter.  `line.replace('### ', '')` removes the first occurrence of
`'### '`, which is the 4-character prefix because the branch is guarded by
`startsWith('### ')`. -/
def parseTasksGo : List Str → Str → Nat → List Task
  | [], _, _ => []
  | l :: ls, sec, n =>
    if startsWithS "### ".toList l then
      parseTasksGo ls (trimS (l.drop 4)) n
    else
      match checkboxSplit l with
      | some (_, b, r2) =>
        { id := "task-" ++ toString n
          text := trimS r2
          completed := (b == 'x' || b == 'X')
          sectionName := if sec.isEmpty then none else some sec } ::
          parseTasksGo ls sec (n + 1)
      | none => parseTasksGo ls sec n

/-- `parseTasks` (src/lib/goals.ts lines 6-32).  The text capture
`\s*(.+)$` followed by `.trim()` equals `trimS r2`: the greedy `\s*` only ever
removes whitespace that `trim` would remove as well. -/
def parseTasks (content : Str) : List Task :=
  parseTasksGo (splitLines content) [] 0

/-- `updateTaskInContent`'s line loop (src/lib/goals.ts lines 273-289): find the
matching task index, rewrite only that line's checkbox character, `break`. -/
def updateTasksGo (taskId : String) (completed : Bool) : List Str → Nat → List Str
  | [], _ => []
  | l :: ls, n =>
    match checkboxSplit l with
    | some (g1, _, r2) =>
      if "task-" ++ toString n == taskId then
        (g1 ++ (if completed then 'x' else ' ') :: ']' :: r2) :: ls
      else l :: updateTasksGo taskId completed ls (n + 1)
    | none => l :: updateTasksGo taskId completed ls n

/-- `updateTaskInContent` (src/lib/goals.ts lines 273-289). -/
def updateTaskInContent (content : Str) (taskId : String) (completed : Bool) : Str :=
  joinLines (updateTasksGo taskId completed (splitLines content) 0)

/-! ### Decimal rendering of task counters is injective -/

/-- Decimal read-back of a digit list. -/
def digitsVal (ds : List Char) : Nat :=
  ds.foldl (fun a c => 10 * a + (c.toNat - 48)) 0

theorem toDigitsCore_acc (f : Nat) : ∀ (n : Nat) (acc : List Char),
    Nat.toDigitsCore 10 f n acc = Nat.toDigitsCore 10 f n [] ++ acc := by
  induction f with
  | zero => intro n acc; simp [Nat.toDigitsCore]
  | succ f ih =>
    intro n acc
    simp only [Nat.toDigitsCore]
    split
    · simp
    · rw [ih (n / 10) [Nat.digitChar (n % 10)],
        ih (n / 10) (Nat.digitChar (n % 10) :: acc), List.append_assoc]
      simp

theorem toDigitsCore_fuel : ∀ (n f₁ f₂ : Nat), n < f₁ → n < f₂ →
    Nat.toDigitsCore 10 f₁ n [] = Nat.toDigitsCore 10 f₂ n [] := by
  intro n
  induction n using Nat.strong_induction_on with
  | _ n ih =>
    intro f₁ f₂ h₁ h₂
    match f₁, f₂ with
    | g₁ + 1, g₂ + 1 =>
      simp only [Nat.toDigitsCore]
      split
      · rfl
      · rename_i hne
        have hn : 10 ≤ n := by
          rcases Nat.lt_or_ge n 10 with h | h
          · exact absurd (Nat.div_eq_of_lt h) hne
          · exact h
        have hlt : n / 10 < n := Nat.div_lt_self (by omega) (by omega)
        rw [toDigitsCore_acc g₁, toDigitsCore_acc g₂,
          ih (n / 10) hlt g₁ g₂ (by omega) (by omega)]

theorem digitChar_readback (m : Nat) (h : m < 10) : (Nat.digitChar m).toNat - 48 = m := by
  interval_cases m <;> rfl

theorem digitsVal_snoc (xs : List Char) (c : Char) :
    digitsVal (xs ++ [c]) = 10 * digitsVal xs + (c.toNat - 48) := by
  simp [digitsVal, List.foldl_append]

theorem digitsVal_toDigitsCore : ∀ n : Nat,
    digitsVal (Nat.toDigitsCore 10 (n + 1) n []) = n := by
  intro n
  induction n using Nat.strong_induction_on with
  | _ n ih =>
    simp only [Nat.toDigitsCore]
    split
    · rename_i hz
      have h10 : n < 10 := by omega
      simp only [digitsVal, List.foldl, Nat.mul_zero, Nat.zero_add]
      rw [digitChar_readback (n % 10) (by omega)]
      omega
    · rename_i hne
      have hn : 10 ≤ n := by
        rcases Nat.lt_or_ge n 10 with h | h
        · exact absurd (Nat.div_eq_of_lt h) hne
        · exact h
      have hlt : n / 10 < n := Nat.div_lt_self (by omega) (by omega)
      rw [toDigitsCore_acc n (n / 10),
        toDigitsCore_fuel (n / 10) n (n / 10 + 1) (by omega) (by omega),
        digitsVal_snoc, ih (n / 10) hlt,
        digitChar_readback (n % 10) (Nat.mod_lt n (by omega))]
      omega

theorem natToString_data (n : Nat) : (toString n).data = Nat.toDigitsCore 10 (n + 1) n [] := rfl

theorem natToString_inj {a b : Nat} (h : toString a = toString b) : a = b := by
  have hd : (toString a).data = (toString b).data := by rw [h]
  rw [natToString_data, natToString_data] at hd
  have := congrArg digitsVal hd
  rwa [digitsVal_toDigitsCore, digitsVal_toDigitsCore] at this

/-! ### Frame property of the update scan (claims C4, C10) -/

/-- Tail of `joinLines` after the first line. -/
def restJoin : List Str → Str
  | [] => []
  | l :: ls => '\n' :: joinLines (l :: ls)

theorem joinLines_eq (l : Str) (ls : List Str) :
    joinLines (l :: ls) = l ++ restJoin ls := by
  cases ls with
  | nil => simp [joinLines, restJoin]
  | cons l' ls' => rfl

theorem restJoin_of_ne (ls : List Str) (h : ls ≠ []) :
    restJoin ls = '\n' :: joinLines ls := by
  cases ls with
  | nil => exact absurd rfl h
  | cons l' ls' => rfl

theorem updateTasksGo_length (taskId : String) (completed : Bool) :
    ∀ (ls : List Str) (n : Nat),
      (updateTasksGo taskId completed ls n).length = ls.length := by
  intro ls
  induction ls with
  | nil => intro n; rfl
  | cons l ls ih =>
    intro n
    cases hcb : checkboxSplit l with
    | some v =>
      obtain ⟨g1, b, r2⟩ := v
      simp only [updateTasksGo, hcb]
      split
      · simp
      · simp [ih]
    | none => simp [updateTasksGo, hcb, ih]

/-- Flat position, inside the joined content, of the checkbox character the
update scan would rewrite for `taskId` (mirrors `updateTasksGo`). -/
def updLocGo (taskId : String) : List Str → Nat → Option Nat
  | [], _ => none
  | l :: ls, n =>
    match checkboxSplit l with
    | some (g1, _, _) =>
      if "task-" ++ toString n == taskId then some g1.length
      else (updLocGo taskId ls (n + 1)).map (fun p => l.length + 1 + p)
    | none => (updLocGo taskId ls n).map (fun p => l.length + 1 + p)

def updLoc (content : Str) (taskId : String) : Option Nat :=
  updLocGo taskId (splitLines content) 0

theorem checkboxSplit_char {l g1 r2} {b : Char}
    (h : checkboxSplit l = some (g1, b, r2)) : b = ' ' ∨ b = 'x' ∨ b = 'X' := by
  match l with
  | [] => simp [checkboxSplit] at h
  | c :: rest =>
    simp only [checkboxSplit] at h
    split at h
    · split at h
      · rename_i x b' r2' heq
        split at h
        · rename_i hg
          simp only [Option.some.injEq, Prod.mk.injEq] at h
          obtain ⟨-, h2, -⟩ := h
          subst h2
          have := (Bool.and_eq_true _ _).mp hg |>.1
          rcases (Bool.or_eq_true _ _).mp this with h' | h'
          · rcases (Bool.or_eq_true _ _).mp h' with h'' | h''
            · exact Or.inl (by simpa using h'')
            · exact Or.inr (Or.inl (by simpa using h''))
          · exact Or.inr (Or.inr (by simpa using h'))
        · exact absurd h (by simp)
      · exact absurd h (by simp)
    · exact absurd h (by simp)

theorem updateTasksGo_of_none (taskId : String) (completed : Bool) :
    ∀ (ls : List Str) (n : Nat), updLocGo taskId ls n = none →
      updateTasksGo taskId completed ls n = ls := by
  intro ls
  induction ls with
  | nil => intro n _; rfl
  | cons l ls ih =>
    intro n h
    cases hcb : checkboxSplit l with
    | some v =>
      obtain ⟨g1, b, r2⟩ := v
      simp only [updLocGo, hcb] at h
      simp only [updateTasksGo, hcb]
      split at h
      · exact absurd h (by simp)
      · rename_i hid
        rw [if_neg (by simpa using hid)]
        cases hrec : updLocGo taskId ls (n + 1) with
        | none => rw [ih (n + 1) hrec]
        | some p' => rw [hrec] at h; simp at h
    | none =>
      simp only [updLocGo, hcb] at h
      simp only [updateTasksGo, hcb]
      cases hrec : updLocGo taskId ls n with
      | none => rw [ih n hrec]
      | some p' => rw [hrec] at h; simp at h

theorem getElem?_append_mid {α : Type} (a : List α) (b : α) (t : List α) :
    (a ++ b :: t)[a.length]? = some b := by
  induction a with
  | nil => simp
  | cons x xs ih => simpa using ih

theorem getElem?_append_shift {α : Type} (a t : List α) (k : Nat) :
    (a ++ t)[a.length + k]? = t[k]? := by
  induction a with
  | nil => simp
  | cons x xs ih => simp [Nat.succ_add, ih]

theorem set_append_mid {α : Type} (a : List α) (b : α) (t : List α) (c : α) :
    (a ++ b :: t).set a.length c = a ++ c :: t := by
  induction a with
  | nil => rfl
  | cons x xs ih => simp [ih]

theorem set_append_shift {α : Type} (a t : List α) (k : Nat) (c : α) :
    (a ++ t).set (a.length + k) c = a ++ t.set k c := by
  induction a with
  | nil => simp
  | cons x xs ih => simp [Nat.succ_add, ih]

theorem updateTasksGo_of_some (taskId : String) (completed : Bool) :
    ∀ (ls : List Str) (n p : Nat), updLocGo taskId ls n = some p →
      ∃ b : Char, (joinLines ls)[p]? = some b ∧ (b = ' ' ∨ b = 'x' ∨ b = 'X') ∧
        joinLines (updateTasksGo taskId completed ls n)
          = (joinLines ls).set p (if completed then 'x' else ' ') := by
  intro ls
  induction ls with
  | nil => intro n p h; simp [updLocGo] at h
  | cons l ls ih =>
    intro n p h
    cases hcb : checkboxSplit l with
    | some v =>
      obtain ⟨g1, b, r2⟩ := v
      simp only [updLocGo, hcb] at h
      split at h
      · rename_i hid
        simp only [Option.some.injEq] at h
        subst h
        have hdec := checkboxSplit_decomp hcb
        refine ⟨b, ?_, checkboxSplit_char hcb, ?_⟩
        · rw [joinLines_eq, hdec,
            show (g1 ++ b :: ']' :: r2) ++ restJoin ls
                = g1 ++ b :: (']' :: r2 ++ restJoin ls) by simp,
            getElem?_append_mid]
        · simp only [updateTasksGo, hcb]
          rw [if_pos (by simpa using hid)]
          rw [joinLines_eq, joinLines_eq, hdec,
            show (g1 ++ b :: ']' :: r2) ++ restJoin ls
                = g1 ++ b :: (']' :: r2 ++ restJoin ls) by simp,
            set_append_mid]
          simp
      · rename_i hid
        cases hrec : updLocGo taskId ls (n + 1) with
        | none => rw [hrec] at h; simp at h
        | some p' =>
          rw [hrec] at h
          simp only [Option.map_some', Option.some.injEq] at h
          subst h
          obtain ⟨bb, hget, hbb, hset⟩ := ih (n + 1) p' hrec
          have hne : ls ≠ [] := by
            intro he; rw [he] at hrec; simp [updLocGo] at hrec
          have hsplit : l ++ '\n' :: joinLines ls = (l ++ ['\n']) ++ joinLines ls := by
            simp
          have hpos : l.length + 1 + p' = (l ++ ['\n']).length + p' := by simp
          refine ⟨bb, ?_, hbb, ?_⟩
          · rw [joinLines_eq, restJoin_of_ne ls hne, hsplit, hpos,
              getElem?_append_shift, hget]
          · simp only [updateTasksGo, hcb]
            rw [if_neg (by simpa using hid)]
            have hne' : updateTasksGo taskId completed ls (n + 1) ≠ [] := by
              intro he
              have hl := updateTasksGo_length taskId completed ls (n + 1)
              rw [he] at hl
              exact hne (List.eq_nil_of_length_eq_zero hl.symm)
            rw [joinLines_eq, restJoin_of_ne _ hne', hset,
              joinLines_eq, restJoin_of_ne ls hne, hsplit, hpos,
              set_append_shift]
            simp
    | none =>
      simp only [updLocGo, hcb] at h
      cases hrec : updLocGo taskId ls n with
      | none => rw [hrec] at h; simp at h
      | some p' =>
        rw [hrec] at h
        simp only [Option.map_some', Option.some.injEq] at h
        subst h
        obtain ⟨bb, hget, hbb, hset⟩ := ih n p' hrec
        have hne : ls ≠ [] := by
          intro he; rw [he] at hrec; simp [updLocGo] at hrec
        have hsplit : l ++ '\n' :: joinLines ls = (l ++ ['\n']) ++ joinLines ls := by
          simp
        have hpos : l.length + 1 + p' = (l ++ ['\n']).length + p' := by simp
        refine ⟨bb, ?_, hbb, ?_⟩
        · rw [joinLines_eq, restJoin_of_ne ls hne, hsplit, hpos,
            getElem?_append_shift, hget]
        · simp only [updateTasksGo, hcb]
          have hne' : updateTasksGo taskId completed ls n ≠ [] := by
            intro he
            have hl := updateTasksGo_length taskId completed ls n
            rw [he] at hl
            exact hne (List.eq_nil_of_length_eq_zero hl.symm)
          rw [joinLines_eq, restJoin_of_ne _ hne', hset,
            joinLines_eq, restJoin_of_ne ls hne, hsplit, hpos,
            set_append_shift]
          simp

/-- Line index (within `splitLines content`) assigned to each task by the
`parseTasks` scan, in task order; mirrors `parseTasksGo` line by line. -/
def parseIdxGo : List Str → Nat → List Nat
  | [], _ => []
  | l :: ls, k =>
    if startsWithS "### ".toList l then parseIdxGo ls (k + 1)
    else
      match checkboxSplit l with
      | some _ => k :: parseIdxGo ls (k + 1)
      | none => parseIdxGo ls (k + 1)

/-- The line rewrite performed by `updateTaskInContent` on a matched line. -/
def rewriteCheckbox (l : Str) (completed : Bool) : Str :=
  match checkboxSplit l with
  | some (g1, _, r2) => g1 ++ (if completed then 'x' else ' ') :: ']' :: r2
  | none => l

theorem stringOfData {s t : String} (h : s.data = t.data) : s = t := by
  cases s; cases t; exact congrArg String.mk h

theorem taskId_inj {n m : Nat}
    (h : "task-" ++ toString n = "task-" ++ toString m) : n = m := by
  have hd := congrArg String.data h
  simp only [String.data_append] at hd
  exact natToString_inj (stringOfData (List.append_cancel_left hd))

theorem beq_taskId_false {n m : Nat} (h : n ≠ m) :
    (("task-" ++ toString n : String) == "task-" ++ toString m) = false := by
  refine beq_eq_false_iff_ne.mpr fun he => h (taskId_inj he)

/-- Core agreement between the `parseTasks` scan and the `updateTaskInContent`
scan, generalised over the line index `k`, task counter `n` and section state:
task `i` of the parse scan comes from exactly the line the update scan rewrites
for id `task-(n+i)`. -/
theorem scan_agree (completed : Bool) :
    ∀ (ls : List Str) (k n : Nat) (sec : Str) (i : Nat),
      ((parseIdxGo ls k)[i]? = none →
          (parseTasksGo ls sec n)[i]? = none ∧
          updateTasksGo ("task-" ++ toString (n + i)) completed ls n = ls) ∧
      (∀ j, (parseIdxGo ls k)[i]? = some j →
          ∃ l t, k ≤ j ∧ ls[j - k]? = some l ∧
            (parseTasksGo ls sec n)[i]? = some t ∧
            t.id = "task-" ++ toString (n + i) ∧
            (∃ g1 b r2, checkboxSplit l = some (g1, b, r2) ∧ t.text = trimS r2 ∧
              t.completed = (b == 'x' || b == 'X')) ∧
            updateTasksGo ("task-" ++ toString (n + i)) completed ls n
              = ls.set (j - k) (rewriteCheckbox l completed)) := by
  intro ls
  induction ls with
  | nil =>
    intro k n sec i
    refine ⟨fun _ => ⟨by simp [parseTasksGo], rfl⟩, fun j hj => ?_⟩
    simp [parseIdxGo] at hj
  | cons l ls ih =>
    intro k n sec i
    cases hhash : startsWithS "### ".toList l with
    | true =>
      have hcb := checkboxSplit_of_hash hhash
      constructor
      · intro hnone
        simp only [parseIdxGo, hhash, if_true] at hnone
        obtain ⟨hp, hu⟩ := (ih (k + 1) n (trimS (l.drop 4)) i).1 hnone
        refine ⟨?_, ?_⟩
        · simp only [parseTasksGo, hhash, if_true]
          exact hp
        · simp only [updateTasksGo, hcb]
          rw [hu]
      · intro j hj
        simp only [parseIdxGo, hhash, if_true] at hj
        obtain ⟨l', t, hk, hget, hpt, hid, hcbx, hupd⟩ :=
          (ih (k + 1) n (trimS (l.drop 4)) i).2 j hj
        refine ⟨l', t, by omega, ?_, ?_, hid, hcbx, ?_⟩
        · rw [show j - k = (j - (k + 1)) + 1 by omega]
          simpa using hget
        · simp only [parseTasksGo, hhash, if_true]
          exact hpt
        · simp only [updateTasksGo, hcb]
          rw [hupd, show j - k = (j - (k + 1)) + 1 by omega]
          rfl
    | false =>
      cases hcb : checkboxSplit l with
      | none =>
        constructor
        · intro hnone
          simp only [parseIdxGo, hhash, Bool.false_eq_true, if_false, hcb] at hnone
          obtain ⟨hp, hu⟩ := (ih (k + 1) n sec i).1 hnone
          refine ⟨?_, ?_⟩
          · simp only [parseTasksGo, hhash, Bool.false_eq_true, if_false, hcb]
            exact hp
          · simp only [updateTasksGo, hcb]
            rw [hu]
        · intro j hj
          simp only [parseIdxGo, hhash, Bool.false_eq_true, if_false, hcb] at hj
          obtain ⟨l', t, hk, hget, hpt, hid, hcbx, hupd⟩ := (ih (k + 1) n sec i).2 j hj
          refine ⟨l', t, by omega, ?_, ?_, hid, hcbx, ?_⟩
          · rw [show j - k = (j - (k + 1)) + 1 by omega]
            simpa using hget
          · simp only [parseTasksGo, hhash, Bool.false_eq_true, if_false, hcb]
            exact hpt
          · simp only [updateTasksGo, hcb]
            rw [hupd, show j - k = (j - (k + 1)) + 1 by omega]
            rfl
      | some v =>
        obtain ⟨g1, b, r2⟩ := v
        cases i with
        | zero =>
          constructor
          · intro hnone
            simp only [parseIdxGo, hhash, Bool.false_eq_true, if_false, hcb,
              List.getElem?_cons_zero] at hnone
            exact absurd hnone (by simp)
          · intro j hj
            simp only [parseIdxGo, hhash, Bool.false_eq_true, if_false, hcb,
              List.getElem?_cons_zero, Option.some.injEq] at hj
            subst hj
            have ht : (parseTasksGo (l :: ls) sec n)[0]?
                = some (Task.mk ("task-" ++ toString n) (trimS r2)
                    (b == 'x' || b == 'X') (if sec.isEmpty then none else some sec)) := by
              simp only [parseTasksGo, hhash, Bool.false_eq_true, if_false, hcb,
                List.getElem?_cons_zero]
            refine ⟨l, _, Nat.le_refl k, by simp [Nat.sub_self], ht, by simp,
              ⟨g1, b, r2, hcb, rfl, rfl⟩, ?_⟩
            simp only [updateTasksGo, hcb, Nat.add_zero]
            rw [if_pos (by simp), Nat.sub_self]
            simp [rewriteCheckbox, hcb]
        | succ i' =>
          have hne : ("task-" ++ toString n == "task-" ++ toString (n + (i' + 1))) = false :=
            beq_taskId_false (by omega)
          constructor
          · intro hnone
            simp only [parseIdxGo, hhash, Bool.false_eq_true, if_false, hcb,
              List.getElem?_cons_succ] at hnone
            obtain ⟨hp, hu⟩ := (ih (k + 1) (n + 1) sec i').1 hnone
            refine ⟨?_, ?_⟩
            · simp only [parseTasksGo, hhash, Bool.false_eq_true, if_false, hcb,
                List.getElem?_cons_succ]
              exact hp
            · simp only [updateTasksGo, hcb]
              rw [if_neg (by simp [hne]), show n + (i' + 1) = n + 1 + i' by omega, hu]
          · intro j hj
            simp only [parseIdxGo, hhash, Bool.false_eq_true, if_false, hcb,
              List.getElem?_cons_succ] at hj
            obtain ⟨l', t, hk, hget, hpt, hid, hcbx, hupd⟩ :=
              (ih (k + 1) (n + 1) sec i').2 j hj
            refine ⟨l', t, by omega, ?_, ?_, ?_, hcbx, ?_⟩
            · rw [show j - k = (j - (k + 1)) + 1 by omega]
              simpa using hget
            · simp only [parseTasksGo, hhash, Bool.false_eq_true, if_false, hcb,
                List.getElem?_cons_succ]
              exact hpt
            · rw [hid, show n + 1 + i' = n + (i' + 1) by omega]
            · simp only [updateTasksGo, hcb]
              rw [if_neg (by simp [hne]), show n + (i' + 1) = n + 1 + i' by omega, hupd,
                show j - k = (j - (k + 1)) + 1 by omega]
              rfl

/-- Claim C4, counterexample.  The claim says a toggle whose task id matches a
parsed checkbox position "changes exactly one character".  Toggling
`task-0` of `"- [x] a"` to completed targets the checkbox character at flat
position 3 (a valid matching id), yet the result is byte-identical to the
input - zero characters change, because the checkbox already holds `x`. -/
theorem updateTask_cex :
    updLoc ("- [x] a".toList) "task-0" = some 3 ∧
    updateTaskInContent ("- [x] a".toList) "task-0" true = "- [x] a".toList := by
  constructor <;> decide

/-- Claim C4 (amended): `updateTaskInContent` rewrites at most one character.
When the task id matches a parsed checkbox position (`updLoc` returns the flat
position `p` of that line's checkbox bracket character), the output is the
input with position `p` overwritten by `'x'` or `' '` - so exactly one
character changes whenever the new character differs from the old one, and no
other byte changes; when the id matches no parsed position the output is
byte-identical (silent no-op). -/
theorem updateTask_frame (content : Str) (taskId : String) (completed : Bool) :
    (updLoc content taskId = none →
        updateTaskInContent content taskId completed = content) ∧
    (∀ p, updLoc content taskId = some p →
        ∃ b, content[p]? = some b ∧ (b = ' ' ∨ b = 'x' ∨ b = 'X') ∧
          updateTaskInContent content taskId completed
            = content.set p (if completed then 'x' else ' ') ∧
          (updateTaskInContent content taskId completed).length = content.length ∧
          ∀ j, j ≠ p → (updateTaskInContent content taskId completed)[j]? = content[j]?) := by
  constructor
  · intro h
    unfold updateTaskInContent
    rw [updateTasksGo_of_none taskId completed _ 0 h, joinLines_splitLines]
  · intro p h
    obtain ⟨b, hget, hb, hset⟩ := updateTasksGo_of_some taskId completed _ 0 p h
    rw [joinLines_splitLines] at hget hset
    have hmain : updateTaskInContent content taskId completed
        = content.set p (if completed then 'x' else ' ') := hset
    refine ⟨b, hget, hb, hmain, ?_, ?_⟩
    · rw [hmain]
      exact List.length_set content p _
    · intro j hj
      rw [hmain]
      exact List.getElem?_set_ne (Ne.symm hj)

/-- Witness for C4: a real toggle rewrites exactly the bracket character, and a
stale id is a byte-identical no-op. -/
theorem updateTask_frame_witness :
    updateTaskInContent ("- [ ] a".toList) "task-0" true
      = ("- [ ] a".toList).set 3 'x' ∧
    updateTaskInContent ("- [ ] a".toList) "task-9" true = "- [ ] a".toList := by
  constructor
  · obtain ⟨b, hget, hb, hmain, -, -⟩ :=
      (updateTask_frame ("- [ ] a".toList) "task-0" true).2 3 (by decide)
    simpa using hmain
  · exact (updateTask_frame ("- [ ] a".toList) "task-9" true).1 (by decide)

/-- Claim C10: the read scan (`parseTasks`) and the update scan
(`updateTaskInContent`) identify tasks identically.  For every content and
index `i`: if the parse scan assigns task `i` to line `j` (`parseIdxGo`, which
mirrors `parseTasks` line by line), then updating `task-i` rewrites exactly
line `j` (the line task `i` was produced from, whose checkbox decomposition
also yields task `i`'s text and completion flag); if the parse scan has no
task `i`, the update is a no-op. -/
theorem tasks_read_update_agree (content : Str) (completed : Bool) (i : Nat) :
    ((parseIdxGo (splitLines content) 0)[i]? = none →
        (parseTasks content)[i]? = none ∧
        updateTaskInContent content ("task-" ++ toString i) completed = content) ∧
    (∀ j, (parseIdxGo (splitLines content) 0)[i]? = some j →
        ∃ l t, (splitLines content)[j]? = some l ∧
          (parseTasks content)[i]? = some t ∧
          t.id = "task-" ++ toString i ∧
          (∃ g1 b r2, checkboxSplit l = some (g1, b, r2) ∧ t.text = trimS r2 ∧
            t.completed = (b == 'x' || b == 'X')) ∧
          updateTaskInContent content ("task-" ++ toString i) completed
            = joinLines ((splitLines content).set j (rewriteCheckbox l completed))) := by
  have h := scan_agree completed (splitLines content) 0 0 [] i
  rw [Nat.zero_add] at h
  constructor
  · intro hn
    obtain ⟨hp, hu⟩ := h.1 hn
    refine ⟨hp, ?_⟩
    unfold updateTaskInContent
    rw [hu, joinLines_splitLines]
  · intro j hj
    obtain ⟨l, t, -, hget, hpt, hid, hcbx, hupd⟩ := h.2 j hj
    rw [Nat.sub_zero] at hget hupd
    refine ⟨l, t, hget, hpt, hid, hcbx, ?_⟩
    unfold updateTaskInContent
    rw [hupd]

/-- Witness for C10 at a concrete two-task body and index 1. -/
theorem tasks_read_update_agree_witness :
    ∃ l t, (splitLines ("- [ ] a\n- [x] b".toList))[1]? = some l ∧
      (parseTasks ("- [ ] a\n- [x] b".toList))[1]? = some t ∧
      t.id = "task-" ++ toString 1 ∧
      (∃ g1 b r2, checkboxSplit l = some (g1, b, r2) ∧ t.text = trimS r2 ∧
        t.completed = (b == 'x' || b == 'X')) ∧
      updateTaskInContent ("- [ ] a\n- [x] b".toList) ("task-" ++ toString 1) false
        = joinLines ((splitLines ("- [ ] a\n- [x] b".toList)).set 1
            (rewriteCheckbox l false)) :=
  (tasks_read_update_agree ("- [ ] a\n- [x] b".toList) false 1).2 1 (by decide)

/-! ## Reflection section scanner (src/lib/reflections.ts, claim C9) -/

structure ReflectionSection where
  question : Str
  answer : Str
deriving DecidableEq, Repr

/-- The line loop of `parseReflectionSections` (src/lib/reflections.ts lines
206-254), carrying `currentQuestion` and `currentAnswer`.  A pair is pushed
only when `currentQuestion` is truthy (non-empty).  `replace('## ', '')` on a
line guarded by `startsWith('## ')` removes the 3-character prefix. -/
def parseReflGo : List Str → Str → List Str → List ReflectionSection
  | [], q, acc =>
    if q.isEmpty then [] else [⟨q, trimS (joinLines acc)⟩]
  | l :: ls, q, acc =>
    if startsWithS "## ".toList l then
      (if q.isEmpty then [] else [⟨q, trimS (joinLines acc)⟩]) ++
        parseReflGo ls (trimS (l.drop 3)) []
    else if startsWithS "# ".toList l && !startsWithS "## ".toList l then
      (if q.isEmpty then [] else [⟨q, trimS (joinLines acc)⟩]) ++ parseReflGo ls [] []
    else if startsWithS "---".toList l then
      (if q.isEmpty then [] else [⟨q, trimS (joinLines acc)⟩]) ++ parseReflGo ls [] []
    else if !q.isEmpty then parseReflGo ls q (acc ++ [l])
    else parseReflGo ls q acc

/-- `parseReflectionSections` (src/lib/reflections.ts lines 206-254). -/
def parseReflectionSections (content : Str) : List ReflectionSection :=
  parseReflGo (splitLines content) [] []

/-- Line classification as described by the claim: a `'## '` line starts a new
question/answer pair keyed by the header text; a `'# '` (not `'## '`) line or a
`'---'` line closes the current pair; every other line is plain answer text. -/
inductive RLine where
  | qHeader (text : Str)
  | closer
  | plain (l : Str)

def classifyRLine (l : Str) : RLine :=
  if startsWithS "## ".toList l then .qHeader (trimS (l.drop 3))
  else if startsWithS "# ".toList l || startsWithS "---".toList l then .closer
  else .plain l

/-- Closing the currently open pair, if any. -/
def closePair : Option (Str × List Str) → List ReflectionSection
  | none => []
  | some (q, acc) => [⟨q, trimS (joinLines acc)⟩]

/-- Scanner written from the claim's words, literally: a `'## '` line always
starts a new pair keyed by the (trimmed) header text; closers close; plain
lines accumulate into the current answer, joined with newlines and trimmed;
pairs are emitted in document order (when closed or at end of input). -/
def reflScanClaim : List Str → Option (Str × List Str) → List ReflectionSection
  | [], st => closePair st
  | l :: ls, st =>
    match classifyRLine l with
    | .qHeader t => closePair st ++ reflScanClaim ls (some (t, []))
    | .closer => closePair st ++ reflScanClaim ls none
    | .plain l' =>
      match st with
      | none => reflScanClaim ls none
      | some (q, acc) => reflScanClaim ls (some (q, acc ++ [l']))

def reflectionScanSpec (content : Str) : List ReflectionSection :=
  reflScanClaim (splitLines content) none

/-- Scanner written from the claim's words, amended only in the empty-header
case: a `'## '` line whose remaining header text is empty (after trimming)
closes the current pair but starts no new one, so an empty-keyed pair is never
emitted. -/
def reflScanAmended : List Str → Option (Str × List Str) → List ReflectionSection
  | [], st => closePair st
  | l :: ls, st =>
    match classifyRLine l with
    | .qHeader t =>
      closePair st ++ reflScanAmended ls (if t.isEmpty then none else some (t, []))
    | .closer => closePair st ++ reflScanAmended ls none
    | .plain l' =>
      match st with
      | none => reflScanAmended ls none
      | some (q, acc) => reflScanAmended ls (some (q, acc ++ [l']))

def reflectionScanSpecAmended (content : Str) : List ReflectionSection :=
  reflScanAmended (splitLines content) none

/-- Claim C9, counterexample.  On `"## \nfoo"` the scanner described by the
claim starts a pair keyed by the empty header text and emits it at end of
input, but `parseReflectionSections` never emits a pair whose question is
empty (the push is guarded by JS truthiness of `currentQuestion`): the code
returns `[]` where the claim's scanner returns one empty-keyed pair. -/
theorem parseReflection_cex :
    parseReflectionSections ("## \nfoo".toList) = [] ∧
    reflectionScanSpec ("## \nfoo".toList) = [⟨[], "foo".toList⟩] ∧
    parseReflectionSections ("## \nfoo".toList) ≠ reflectionScanSpec ("## \nfoo".toList) := by
  refine ⟨by decide, by decide, by decide⟩

theorem ne_true_of_eq_false {b : Bool} (h : b = false) : ¬(b = true) := by
  rw [h]; simp

theorem reflGo_equiv : ∀ (ls : List Str) (q : Str) (acc : List Str),
    parseReflGo ls q acc
      = reflScanAmended ls (if q.isEmpty then none else some (q, acc)) := by
  intro ls
  induction ls with
  | nil =>
    intro q acc
    cases hq : q.isEmpty with
    | true => simp [parseReflGo, reflScanAmended, hq, closePair]
    | false => simp [parseReflGo, reflScanAmended, hq, closePair]
  | cons l ls ih =>
    intro q acc
    have hclose : closePair (if q.isEmpty then none else some (q, acc))
        = (if q.isEmpty then [] else [⟨q, trimS (joinLines acc)⟩]) := by
      cases hq : q.isEmpty <;> simp [closePair]
    cases h2 : startsWithS "## ".toList l with
    | true =>
      have hcl : classifyRLine l = .qHeader (trimS (l.drop 3)) := by
        unfold classifyRLine
        rw [if_pos h2]
      simp only [parseReflGo, reflScanAmended, hcl]
      rw [if_pos h2, ih (trimS (l.drop 3)) [], hclose]
    | false =>
      cases hs1 : startsWithS "# ".toList l with
      | true =>
        have hcl : classifyRLine l = .closer := by
          unfold classifyRLine
          rw [if_neg (ne_true_of_eq_false h2), if_pos (by rw [hs1]; simp)]
        have hih := ih [] []
        simp only [List.isEmpty_nil, if_true] at hih
        simp only [parseReflGo, reflScanAmended, hcl]
        rw [if_neg (ne_true_of_eq_false h2), if_pos (by rw [hs1, h2]; rfl),
          hih, hclose]
      | false =>
        cases hs3 : startsWithS "---".toList l with
        | true =>
          have hcl : classifyRLine l = .closer := by
            unfold classifyRLine
            rw [if_neg (ne_true_of_eq_false h2), if_pos (by rw [hs3]; simp)]
          have hih := ih [] []
          simp only [List.isEmpty_nil, if_true] at hih
          simp only [parseReflGo, reflScanAmended, hcl]
          rw [if_neg (ne_true_of_eq_false h2), if_neg (by rw [hs1]; simp),
            if_pos hs3, hih, hclose]
        | false =>
          have hcl : classifyRLine l = .plain l := by
            unfold classifyRLine
            rw [if_neg (ne_true_of_eq_false h2), if_neg (by rw [hs1, hs3]; simp)]
          simp only [parseReflGo, reflScanAmended, hcl]
          rw [if_neg (ne_true_of_eq_false h2), if_neg (by rw [hs1]; simp),
            if_neg (ne_true_of_eq_false hs3)]
          cases hq : q.isEmpty with
          | true =>
            have hqe : q = [] := by
              cases q with
              | nil => rfl
              | cons a as => simp [List.isEmpty] at hq
            subst hqe
            simp only [Bool.not_true, Bool.false_eq_true, if_false]
            rw [ih [] acc]
            simp
          | false =>
            simp only [hq, Bool.not_false, if_true]
            rw [ih q (acc ++ [l])]
            simp [hq]

/-- Claim C9 (amended): `parseReflectionSections` behaves exactly as the
claim's line-by-line scanner, amended only so that a `'## '` header with empty
text closes the current pair without starting one (the code never emits an
empty-keyed pair): for every content the two produce the same list of
question/answer pairs, in document order. -/
theorem parseReflection_spec_equiv (content : Str) :
    parseReflectionSections content = reflectionScanSpecAmended content := by
  unfold parseReflectionSections reflectionScanSpecAmended
  simpa using reflGo_equiv (splitLines content) [] []

/-! ## Document store and the task-toggle route (claim C8) -/

/-- Goal frontmatter, restricted to the fields the embedded routes read
(status lifecycle and period/quarter/month/week matching); the other
frontmatter keys play no role in the claims. -/
structure GoalFm where
  period : String
  status : String
  quarter : Option Int
  month : Option Int
  week : Option Int
  updated : String
deriving DecidableEq, Repr

structure StoredFile where
  fm : GoalFm
  body : Str
deriving DecidableEq, Repr

/-- Document store: relative path to markdown file.  Recursive listing is
modelled as a filter in store order (the on-disk readdir walk fixes an order;
the builder's `find` picks the first hit in it). -/
abbrev Store := List (String × StoredFile)

def readStored (st : Store) (p : String) : Option StoredFile :=
  (st.find? (fun e => e.1 == p)).map (fun e => e.2)

def fileExistsS (st : Store) (p : String) : Bool := (readStored st p).isSome

def writeStored (st : Store) (p : String) (f : StoredFile) : Store :=
  if (st.find? (fun e => e.1 == p)).isSome then
    st.map (fun e => if e.1 == p then (p, f) else e)
  else st ++ [(p, f)]

theorem readStored_map_write : ∀ (st : Store) (p : String) (f : StoredFile),
    (st.find? (fun e => e.1 == p)).isSome = true →
    readStored (st.map (fun e => if e.1 == p then (p, f) else e)) p = some f := by
  intro st p f
  induction st with
  | nil => intro h; simp at h
  | cons e es ih =>
    intro h
    cases he : (e.1 == p) with
    | true =>
      simp only [List.map_cons, he, if_true]
      simp only [readStored, List.find?_cons]
      simp
    | false =>
      have hh : (es.find? (fun e => e.1 == p)).isSome = true := by
        simpa [List.find?_cons, he] using h
      simp only [List.map_cons, he, Bool.false_eq_true, if_false]
      simpa [readStored, List.find?_cons, he] using ih hh

theorem readStored_append_write : ∀ (st : Store) (p : String) (f : StoredFile),
    (st.find? (fun e => e.1 == p)).isSome = false →
    readStored (st ++ [(p, f)]) p = some f := by
  intro st p f
  induction st with
  | nil => intro h; simp [readStored, List.find?]
  | cons e es ih =>
    intro h
    cases he : (e.1 == p) with
    | true => simp [List.find?_cons, he] at h
    | false =>
      have hh : (es.find? (fun e => e.1 == p)).isSome = false := by
        simpa [List.find?_cons, he] using h
      simpa [readStored, List.find?_cons, he] using ih hh

theorem readStored_writeStored (st : Store) (p : String) (f : StoredFile) :
    readStored (writeStored st p f) p = some f := by
  unfold writeStored
  cases hf : (st.find? (fun e => e.1 == p)).isSome with
  | true =>
    rw [if_pos rfl]
    exact readStored_map_write st p f hf
  | false =>
    rw [if_neg (by simp)]
    exact readStored_append_write st p f hf

/-- Status of the goal document at `p`, if present. -/
def statusAt (st : Store) (p : String) : Option String :=
  (readStored st p).map (fun f => f.fm.status)

/-- The task-toggle route (src/app/api/agent/route.ts, `PATCH`, lines
402-444): read the goal (its body trimmed, as `readMarkdownFile` does),
rewrite the checkbox via `updateTaskInContent`, set `status` to
`'in-progress'` when the toggle marks the task completed (otherwise keep it),
refresh `updated` (done by `writeGoal`) and write back.  A missing goal is a
404 and leaves the store unchanged; `now` stands for the timestamp `writeGoal`
generates. -/
def patchRoute (st : Store) (path taskId : String) (completed : Bool)
    (now : String) : Store :=
  match readStored st path with
  | none => st
  | some g =>
    let content := updateTaskInContent (trimS g.body) taskId completed
    let fm := { g.fm with
      status := if completed then "in-progress" else g.fm.status
      updated := now }
    writeStored st path ⟨fm, content⟩

/-- A sequence of task-completion toggles against one document. -/
def patchSeq (st : Store) (path : String) : List (String × Bool × String) → Store
  | [] => st
  | op :: ops => patchSeq (patchRoute st path op.1 op.2.1 op.2.2) path ops

theorem patch_status_step (st : Store) (path taskId : String) (completed : Bool)
    (now : String) :
    statusAt (patchRoute st path taskId completed now) path = statusAt st path ∨
    statusAt (patchRoute st path taskId completed now) path = some "in-progress" := by
  unfold patchRoute
  cases hg : readStored st path with
  | none => exact Or.inl rfl
  | some g =>
    simp only
    rw [statusAt, readStored_writeStored]
    cases completed with
    | true => exact Or.inr rfl
    | false =>
      left
      simp [statusAt, hg]

/-- Claim C8: across task-completion toggles the status either stays unchanged
or becomes `'in-progress'`; a toggle that marks a task completed flips the
status of an existing goal to `'in-progress'`; and no sequence of toggles ever
flips a status back to `'not-started'` (if the status is `'not-started'` after
any sequence of toggles, it already was before). -/
theorem patch_status_monotone (st : Store) (path taskId : String)
    (completed : Bool) (now : String) :
    (statusAt (patchRoute st path taskId completed now) path = statusAt st path ∨
     statusAt (patchRoute st path taskId completed now) path = some "in-progress") ∧
    (completed = true → (readStored st path).isSome →
        statusAt (patchRoute st path taskId completed now) path = some "in-progress") ∧
    (∀ ops : List (String × Bool × String),
        statusAt (patchSeq st path ops) path = some "not-started" →
        statusAt st path = some "not-started") := by
  refine ⟨patch_status_step st path taskId completed now, ?_, ?_⟩
  · intro hc hsome
    subst hc
    unfold patchRoute
    cases hg : readStored st path with
    | none => rw [hg] at hsome; simp at hsome
    | some g =>
      simp only
      rw [statusAt, readStored_writeStored]
      simp
  · intro ops
    induction ops generalizing st with
    | nil => intro h; exact h
    | cons op rest ih =>
      intro h
      have hstep := patch_status_step st path op.1 op.2.1 op.2.2
      have hmid := ih (patchRoute st path op.1 op.2.1 op.2.2) h
      rcases hstep with he | he
      · rw [← he]; exact hmid
      · rw [hmid] at he
        simp at he

/-- Witness for C8 at a concrete store: a completion toggle flips
`not-started` to `in-progress`, and a final `not-started` status implies it
was already `not-started`. -/
theorem patch_status_monotone_witness :
    statusAt (patchRoute [("goals/2025/yearly.md",
        ⟨⟨"yearly", "not-started", none, none, none, "t0"⟩, "- [ ] a".toList⟩)]
      "goals/2025/yearly.md" "task-0" true "t1") "goals/2025/yearly.md"
      = some "in-progress" := by
  have h := (patch_status_monotone [("goals/2025/yearly.md",
      ⟨⟨"yearly", "not-started", none, none, none, "t0"⟩, "- [ ] a".toList⟩)]
    "goals/2025/yearly.md" "task-0" true "t1").2.1 rfl (by decide)
  exact h

/-! ## Goal reading and the goal tree builder (claim C2) -/

/-- `calculateProgress` (src/lib/goals.ts lines 41-45):
`Math.round((completed / tasks.length) * 100)`, with 0 for an empty list.
`Math.round` on the exact rational value is `floor(x + 1/2)` (ties round up),
i.e. `(200c + t) / (2t)` in integer arithmetic; the double-precision
evaluation agrees on these small counts. -/
def calculateProgress (tasks : List Task) : Nat :=
  if tasks.length = 0 then 0
  else (200 * (tasks.filter (fun t => t.completed)).length + tasks.length)
        / (2 * tasks.length)

/-- Matcher for `/^#\s+(.+)$/` on one line, returning `match[1].trim()`.
The match succeeds iff the line is `#`, one whitespace character and at least
one further character; the greedy `\s+` / `(.+)` split is irrelevant after
`.trim()`. -/
def titleLineMatch : Str → Option Str
  | '#' :: c :: d :: t => if jsWs c then some (trimS (c :: d :: t)) else none
  | _ => none

def extractTitleGo : List Str → Str
  | [] => "Untitled".toList
  | l :: ls =>
    match titleLineMatch l with
    | some t => t
    | none => extractTitleGo ls

/-- `extractTitle` (src/lib/goals.ts lines 35-38): first `# `-titled line, or
`Untitled`. -/
def extractTitle (content : Str) : Str :=
  extractTitleGo (splitLines content)

structure Goal where
  id : String
  path : String
  fm : GoalFm
  content : Str
  title : Str
  tasks : List Task
deriving DecidableEq, Repr

/-- `readGoal` (src/lib/goals.ts lines 48-63) over the store model: the body
comes back trimmed from `readMarkdownFile`; `id` is the path with `/` and `.`
replaced by `-`. -/
def readGoalM (st : Store) (p : String) : Option Goal :=
  (readStored st p).map (fun f =>
    let content := trimS f.body
    { id := String.mk (p.data.map (fun c => if c == '/' || c == '.' then '-' else c))
      path := p
      fm := f.fm
      content := content
      title := extractTitle content
      tasks := parseTasks content })

/-- `listMarkdownFiles dir` over the store model: the stored paths under
`dir/`, in store order (every stored file is a `.md` document).  The path
prefix test is done on the code-point lists (same as `String.isPrefixOf`). -/
def listFilesS (st : Store) (dir : String) : List String :=
  (st.map (fun e => e.1)).filter (fun p => (dir ++ "/").data.isPrefixOf p.data)

/-- `getGoalsForYear` (src/lib/goals.ts lines 106-110). -/
def getGoalsForYear (st : Store) (year : Int) : List Goal :=
  (listFilesS st ("goals/" ++ toString year)).filterMap (readGoalM st)

/-- `GoalTreeNode` (ephemeral tree returned by `buildGoalTree`). -/
inductive TreeNode where
  | mk (id title period status : String) (progress : Nat) (path : String)
      (children : List TreeNode) (tasksCompleted tasksTotal : Nat)

def TreeNode.id : TreeNode → String
  | .mk i _ _ _ _ _ _ _ _ => i

def TreeNode.title : TreeNode → String
  | .mk _ t _ _ _ _ _ _ _ => t

def TreeNode.period : TreeNode → String
  | .mk _ _ p _ _ _ _ _ _ => p

def TreeNode.status : TreeNode → String
  | .mk _ _ _ s _ _ _ _ _ => s

def TreeNode.progress : TreeNode → Nat
  | .mk _ _ _ _ pr _ _ _ _ => pr

def TreeNode.path : TreeNode → String
  | .mk _ _ _ _ _ p _ _ _ => p

def TreeNode.children : TreeNode → List TreeNode
  | .mk _ _ _ _ _ _ c _ _ => c

def TreeNode.withChildren : TreeNode → List TreeNode → TreeNode
  | .mk i t p s pr pa _ tc tt, cs => .mk i t p s pr pa cs tc tt

/-- JS `x || dflt` for a possibly-absent string (`undefined` and `''` are
falsy). -/
def orElseStr (s : Option String) (dflt : String) : String :=
  match s with
  | some v => if v.isEmpty then dflt else v
  | none => dflt

/-- JS template interpolation of a possibly-`undefined` number. -/
def optIntStr : Option Int → String
  | some n => toString n
  | none => "undefined"

/-- The local `buildNode` helper of `buildGoalTree`. -/
def buildNode (g : Option Goal) (period label : String) : Option TreeNode :=
  match g with
  | none => none
  | some goal =>
    some (.mk goal.id label period goal.fm.status (calculateProgress goal.tasks)
      goal.path [] ((goal.tasks.filter (fun t => t.completed)).length)
      goal.tasks.length)

/-- Week leaves of a month node (src/lib/goals.ts lines 240-258). -/
def buildWeekNodes (allGoals : List Goal) (month : Int) : List TreeNode :=
  (allGoals.filter
      (fun g => g.fm.period == "weekly" && g.fm.month == some month)).map
    (fun wg => TreeNode.mk wg.id ("Week " ++ optIntStr wg.fm.week) "weekly"
      wg.fm.status (calculateProgress wg.tasks) wg.path []
      ((wg.tasks.filter (fun t => t.completed)).length) wg.tasks.length)

/-- Month node (src/lib/goals.ts lines 220-261): present only when a matching
monthly document exists; `monthGoal.title || 'Month {m}'` falls back on the
empty title. -/
def buildMonthNode (allGoals : List Goal) (year month : Int) : Option TreeNode :=
  match allGoals.find?
      (fun g => g.fm.period == "monthly" && g.fm.month == some month) with
  | none => none
  | some mg =>
    some (.mk ("m" ++ toString month ++ "-" ++ toString year)
      (if mg.title.isEmpty then "Month " ++ toString month else String.mk mg.title)
      "monthly" mg.fm.status (calculateProgress mg.tasks) mg.path
      (buildWeekNodes allGoals month)
      ((mg.tasks.filter (fun t => t.completed)).length) mg.tasks.length)

/-- Quarter node (src/lib/goals.ts lines 203-267): always built, but attached
only when it has a document or at least one month child. -/
def buildQuarterNode (allGoals : List Goal) (year q : Int) : Option TreeNode :=
  let quarterGoal := allGoals.find?
    (fun g => g.fm.period == "quarterly" && g.fm.quarter == some q)
  let monthNodes := ([(q - 1) * 3 + 1, (q - 1) * 3 + 2, (q - 1) * 3 + 3] : List Int).filterMap
    (buildMonthNode allGoals year)
  let node := TreeNode.mk ("q" ++ toString q ++ "-" ++ toString year)
    ("Q" ++ toString q) "quarterly"
    (orElseStr (quarterGoal.map (fun g => g.fm.status)) "not-started")
    (match quarterGoal with | some g => calculateProgress g.tasks | none => 0)
    ("goals/" ++ toString year ++ "/q" ++ toString q ++ "/quarterly.md")
    monthNodes
    (match quarterGoal with
     | some g => (g.tasks.filter (fun t => t.completed)).length
     | none => 0)
    (match quarterGoal with | some g => g.tasks.length | none => 0)
  if monthNodes.length > 0 || quarterGoal.isSome then some node else none

/-- `buildGoalTree` (src/lib/goals.ts lines 139-270) over the store model.
Note the early return: when a vision document exists, the yearly root is
attached as the vision node's single child while its own `children` list is
still empty - the quarter loop only runs on the no-vision path. -/
def buildGoalTree (st : Store) (year : Int) : TreeNode :=
  let visionPath := "vision/" ++ toString (year + 2) ++ ".md"
  let vision : Option Goal :=
    if fileExistsS st visionPath then readGoalM st visionPath else none
  let yearlyGoal := readGoalM st ("goals/" ++ toString year ++ "/yearly.md")
  let root0 : TreeNode := .mk "root" (toString year) "yearly"
    (orElseStr (yearlyGoal.map (fun g => g.fm.status)) "not-started")
    (match yearlyGoal with | some g => calculateProgress g.tasks | none => 0)
    ("goals/" ++ toString year ++ "/yearly.md") []
    (match yearlyGoal with
     | some g => (g.tasks.filter (fun t => t.completed)).length
     | none => 0)
    (match yearlyGoal with | some g => g.tasks.length | none => 0)
  match buildNode vision "vision" ("Vision " ++ toString (year + 2)) with
  | some visionNode => visionNode.withChildren [root0]
  | none =>
    let allGoals := getGoalsForYear st year
    root0.withChildren
      (([1, 2, 3, 4] : List Int).filterMap (buildQuarterNode allGoals year))

def cexQuarterFile : StoredFile :=
  ⟨⟨"quarterly", "in-progress", some 1, none, none, ""⟩, "- [ ] t".toList⟩

def cexVisionFile : StoredFile :=
  ⟨⟨"vision", "in-progress", none, none, none, ""⟩, "x".toList⟩

def storeWithVision : Store :=
  [("vision/2027.md", cexVisionFile), ("goals/2025/q1/quarterly.md", cexQuarterFile)]

def storeNoVision : Store :=
  [("goals/2025/q1/quarterly.md", cexQuarterFile)]

/-- Claim C2, counterexample.  With a vision document at `vision/2027.md` and a
quarterly document for Q1 2025 in the store, `buildGoalTree 2025` returns the
vision root whose single yearly child has NO children; removing only the
vision document yields a yearly root with the Q1 node attached.  The yearly
subtree is therefore not built the same way as in the no-vision case - the
early return skips the quarter loop entirely. -/
theorem buildGoalTree_vision_cex :
    (buildGoalTree storeWithVision 2025).period = "vision" ∧
    ((buildGoalTree storeWithVision 2025).children.map
        (fun c => c.children.length)) = [0] ∧
    (buildGoalTree storeNoVision 2025).children.length = 1 := by
  refine ⟨?_, ?_, ?_⟩ <;> decide

/-- Claim C2 (amended): when a vision document exists at the deterministic path
for `year+2`, `buildGoalTree year` returns the vision node as the tree root
with a single child, the yearly node - but because the function returns before
the quarter loop, that yearly child's subtree is always empty; the quarter,
month and week nodes are only assembled when no vision document exists. -/
theorem buildGoalTree_vision (st : Store) (year : Int) (vf : StoredFile)
    (h : readStored st ("vision/" ++ toString (year + 2) ++ ".md") = some vf) :
    (buildGoalTree st year).period = "vision" ∧
    (buildGoalTree st year).path = "vision/" ++ toString (year + 2) ++ ".md" ∧
    (buildGoalTree st year).title = "Vision " ++ toString (year + 2) ∧
    (buildGoalTree st year).status = vf.fm.status ∧
    ∃ yroot, (buildGoalTree st year).children = [yroot] ∧
      yroot.id = "root" ∧ yroot.period = "yearly" ∧
      yroot.title = toString year ∧
      yroot.path = "goals/" ++ toString year ++ "/yearly.md" ∧
      yroot.children = [] := by
  have hex : fileExistsS st ("vision/" ++ toString (year + 2) ++ ".md") = true := by
    simp [fileExistsS, h]
  simp only [buildGoalTree, hex, if_true, readGoalM, h, Option.map_some', buildNode]
  exact ⟨rfl, rfl, rfl, rfl, _, rfl, rfl, rfl, rfl, rfl, rfl⟩

/-- Witness for C2 at the concrete vision store. -/
theorem buildGoalTree_vision_witness :
    (buildGoalTree storeWithVision 2025).period = "vision" ∧
    (buildGoalTree storeWithVision 2025).path
      = "vision/" ++ toString ((2025 : Int) + 2) ++ ".md" ∧
    (buildGoalTree storeWithVision 2025).title
      = "Vision " ++ toString ((2025 : Int) + 2) ∧
    (buildGoalTree storeWithVision 2025).status = cexVisionFile.fm.status ∧
    ∃ yroot, (buildGoalTree storeWithVision 2025).children = [yroot] ∧
      yroot.id = "root" ∧ yroot.period = "yearly" ∧
      yroot.title = toString (2025 : Int) ∧
      yroot.path = "goals/" ++ toString (2025 : Int) ++ "/yearly.md" ∧
      yroot.children = [] :=
  buildGoalTree_vision storeWithVision 2025 cexVisionFile (by decide)

/-! ## Calendar model (src/unnamed/part_000: period calculator over date-fns)

A JS `Date` is modelled as a civil (year, month, day) triple, `month` 1-12 as
in the civil calendar (the JS 0-based `getMonth()` plus one, mirrored at the
use sites).  Every anchor the calculator handles is midnight-aligned and every
comparison in the code compares two midnights or a midnight against an
end-of-period (23:59:59.999), so ordering dates by calendar day is exact.
`toDays` assigns each triple its day number (days since 1970-01-01), used for
comparisons, weekdays and week arithmetic. -/

structure Date where
  year : Int
  month : Int
  day : Int
deriving DecidableEq, Repr

/-- Proleptic Gregorian leap year; divisibility by a constant agrees between
the JS truncating `%` and `emod`. -/
def isLeap (y : Int) : Bool :=
  (y % 4 == 0 && y % 100 != 0) || y % 400 == 0

def monthLength (y m : Int) : Int :=
  if m = 2 then (if isLeap y then 29 else 28)
  else if m = 4 ∨ m = 6 ∨ m = 9 ∨ m = 11 then 30
  else 31

def ValidDate (d : Date) : Prop :=
  1 ≤ d.month ∧ d.month ≤ 12 ∧ 1 ≤ d.day ∧ d.day ≤ monthLength d.year d.month

instance (d : Date) : Decidable (ValidDate d) := by
  unfold ValidDate; exact inferInstance

/-- Day-of-March-year of the first day of a (shifted) month: March is 0. -/
def mdoy (m : Int) : Int :=
  (153 * (if 2 < m then m - 3 else m + 9) + 2) / 5

/-- Days before March 1 of shifted year `y`, counted from the proleptic era
decomposition (146097-day eras of 400 years). -/
def gg (n : Int) : Int := 365 * n + n / 4 - n / 100

def marchBase (y : Int) : Int := (y / 400) * 146097 + gg (y % 400)

/-- Day number of a civil date: days since 1970-01-01 (negative before). -/
def toDays (d : Date) : Int :=
  let yy := if d.month ≤ 2 then d.year - 1 else d.year
  marchBase yy + mdoy d.month + d.day - 1 - 719468

theorem isLeap_iff (y : Int) :
    isLeap y = true ↔ ((y % 4 = 0 ∧ ¬(y % 100 = 0)) ∨ y % 400 = 0) := by
  simp [isLeap]

/-- From March 1 of shifted year `y-1` to March 1 of shifted year `y` there
are 365 days plus the leap day of (calendar) year `y`. -/
theorem marchBase_succ (y : Int) :
    marchBase y = marchBase (y - 1) + 365 + (if isLeap y then 1 else 0) := by
  have hiff := isLeap_iff y
  cases hL : isLeap y with
  | true =>
    rw [hL] at hiff
    simp only [if_true]
    have := hiff.mp rfl
    unfold marchBase gg
    omega
  | false =>
    rw [hL] at hiff
    simp only [Bool.false_eq_true, if_false]
    have : ¬((y % 4 = 0 ∧ ¬(y % 100 = 0)) ∨ y % 400 = 0) := by
      intro hc
      exact absurd (hiff.mpr hc) (by simp)
    unfold marchBase gg
    omega

/-- Cumulative days before month `m` within calendar year `y`. -/
def cumd (y m : Int) : Int :=
  let L : Int := if isLeap y then 1 else 0
  if m = 1 then 0 else if m = 2 then 31 else if m = 3 then 59 + L
  else if m = 4 then 90 + L else if m = 5 then 120 + L else if m = 6 then 151 + L
  else if m = 7 then 181 + L else if m = 8 then 212 + L else if m = 9 then 243 + L
  else if m = 10 then 273 + L else if m = 11 then 304 + L else 334 + L

theorem toDays_split (y m d : Int) (h1 : 1 ≤ m) (h2 : m ≤ 12) :
    toDays ⟨y, m, d⟩ = toDays ⟨y, 1, 1⟩ + cumd y m + d - 1 := by
  have hs := marchBase_succ y
  cases hL : isLeap y with
  | true =>
    rw [hL] at hs
    simp only [if_true] at hs
    interval_cases m <;> simp [toDays, mdoy, cumd, hL] <;> omega
  | false =>
    rw [hL] at hs
    simp only [Bool.false_eq_true, if_false] at hs
    interval_cases m <;> simp [toDays, mdoy, cumd, hL] <;> omega

/-- Calendar year length through January firsts. -/
theorem jan1_next (y : Int) :
    toDays ⟨y + 1, 1, 1⟩ = toDays ⟨y, 1, 1⟩ + 365 + (if isLeap y then 1 else 0) := by
  have hs := marchBase_succ y
  simp only [toDays, mdoy]
  norm_num
  omega

/-- `cumd` steps by the month length. -/
theorem cumd_step (y m : Int) (h1 : 1 ≤ m) (h2 : m ≤ 11) :
    cumd y (m + 1) = cumd y m + monthLength y m := by
  cases hL : isLeap y with
  | true => interval_cases m <;> simp [cumd, monthLength, hL]
  | false => interval_cases m <;> simp [cumd, monthLength, hL]

theorem cumd_nonneg (y m : Int) (h1 : 1 ≤ m) (h2 : m ≤ 12) : 0 ≤ cumd y m := by
  cases hL : isLeap y with
  | true => interval_cases m <;> simp [cumd, hL]
  | false => interval_cases m <;> simp [cumd, hL]

theorem cumd_mono (y m m' : Int) (h1 : 1 ≤ m) (h2 : m ≤ m') (h3 : m' ≤ 12) :
    cumd y m ≤ cumd y m' := by
  have h4 : m ≤ 12 := le_trans h2 h3
  have h5 : 1 ≤ m' := le_trans h1 h2
  cases hL : isLeap y with
  | true =>
    interval_cases m <;> interval_cases m' <;> simp [cumd, hL]
  | false =>
    interval_cases m <;> interval_cases m' <;> simp [cumd, hL]

/-- The last day of a month stays within the year length. -/
theorem cumd_monthLength_le (y m : Int) (h1 : 1 ≤ m) (h2 : m ≤ 12) :
    cumd y m + monthLength y m ≤ 365 + (if isLeap y then 1 else 0) := by
  cases hL : isLeap y with
  | true => interval_cases m <;> simp [cumd, monthLength, hL]
  | false => interval_cases m <;> simp [cumd, monthLength, hL]

theorem monthLength_pos (y m : Int) : 1 ≤ monthLength y m := by
  unfold monthLength
  split
  · split <;> omega
  · split <;> omega

theorem monthLength_le (y m : Int) : monthLength y m ≤ 31 := by
  unfold monthLength
  split
  · split <;> omega
  · split <;> omega

/-- A valid date sits between January 1 and December 31 of its year. -/
theorem toDays_year_bounds {t : Date} (h : ValidDate t) :
    toDays ⟨t.year, 1, 1⟩ ≤ toDays t ∧
    toDays t ≤ toDays ⟨t.year, 12, 31⟩ := by
  obtain ⟨h1, h2, h3, h4⟩ := h
  have hm := toDays_split t.year t.month t.day h1 h2
  have hm12 := toDays_split t.year 12 31 (by omega) (by omega)
  have hc0 := cumd_nonneg t.year t.month h1 h2
  have hcl := cumd_monthLength_le t.year t.month h1 h2
  have h12 : cumd t.year 12 = 334 + (if isLeap t.year then 1 else 0) := by
    cases hL : isLeap t.year with
    | true => simp [cumd, hL]
    | false => simp [cumd, hL]
  have ht : toDays ⟨t.year, t.month, t.day⟩ = toDays t := by
    cases t; rfl
  rw [ht] at hm
  constructor
  · omega
  · split at hcl <;> split at h12 <;> omega

/-- January firsts are strictly increasing, at least 365 days per year. -/
theorem jan1_mono (y : Int) (n : Nat) :
    toDays ⟨y, 1, 1⟩ + 365 * n ≤ toDays ⟨y + n, 1, 1⟩ := by
  induction n with
  | zero => simp
  | succ k ih =>
    have hn := jan1_next (y + k)
    have : ((y + (k + 1 : Nat)) : Int) = (y + k) + 1 := by push_cast; ring
    rw [this, hn]
    push_cast
    split <;> omega

theorem dec31_lt_jan1 (y : Int) : toDays ⟨y, 12, 31⟩ < toDays ⟨y + 1, 1, 1⟩ := by
  have hj := jan1_next y
  have h12 := toDays_split y 12 31 (by omega) (by omega)
  cases hL : isLeap y with
  | true =>
    rw [hL] at hj
    simp at hj
    simp [cumd, hL] at h12
    omega
  | false =>
    rw [hL] at hj
    simp at hj
    simp [cumd, hL] at h12
    omega

/-- A valid date with day number in year `Y`'s range lies in year `Y`. -/
theorem year_of_toDays {t : Date} (h : ValidDate t) (Y : Int)
    (h1 : toDays ⟨Y, 1, 1⟩ ≤ toDays t)
    (h2 : toDays t < toDays ⟨Y + 1, 1, 1⟩) : t.year = Y := by
  obtain ⟨hb1, hb2⟩ := toDays_year_bounds h
  by_contra hne
  have hd12 : toDays ⟨t.year, 12, 31⟩ < toDays ⟨t.year + 1, 1, 1⟩ :=
    dec31_lt_jan1 t.year
  rcases Int.lt_or_lt_of_ne hne with hlt | hlt
  · -- t.year < Y: toDays t ≤ dec 31 t.year < jan 1 (t.year+1) ≤ jan 1 Y
    have hy : t.year + 1 ≤ Y := by omega
    have hstep : toDays ⟨t.year + 1, 1, 1⟩ ≤ toDays ⟨Y, 1, 1⟩ := by
      have := jan1_mono (t.year + 1) (Y - (t.year + 1)).toNat
      have he : ((t.year + 1) + ((Y - (t.year + 1)).toNat : Int)) = Y := by omega
      rw [he] at this
      omega
    omega
  · -- Y < t.year
    have hy : Y + 1 ≤ t.year := by omega
    have hstep : toDays ⟨Y + 1, 1, 1⟩ ≤ toDays ⟨t.year, 1, 1⟩ := by
      have := jan1_mono (Y + 1) (t.year - (Y + 1)).toNat
      have he : ((Y + 1) + ((t.year - (Y + 1)).toNat : Int)) = t.year := by omega
      rw [he] at this
      omega
    omega

/-- Next calendar day. -/
def succDay (t : Date) : Date :=
  if t.day < monthLength t.year t.month then ⟨t.year, t.month, t.day + 1⟩
  else if t.month < 12 then ⟨t.year, t.month + 1, 1⟩
  else ⟨t.year + 1, 1, 1⟩

/-- Previous calendar day. -/
def predDay (t : Date) : Date :=
  if 1 < t.day then ⟨t.year, t.month, t.day - 1⟩
  else if 1 < t.month then ⟨t.year, t.month - 1, monthLength t.year (t.month - 1)⟩
  else ⟨t.year - 1, 12, 31⟩

theorem succDay_valid {t : Date} (h : ValidDate t) : ValidDate (succDay t) := by
  obtain ⟨h1, h2, h3, h4⟩ := h
  unfold succDay ValidDate
  split
  · dsimp only
    exact ⟨h1, h2, by omega, by omega⟩
  · split
    · dsimp only
      refine ⟨by omega, by omega, by omega, monthLength_pos _ _⟩
    · dsimp only
      exact ⟨by omega, by omega, by omega, by norm_num [monthLength]⟩

theorem predDay_valid {t : Date} (h : ValidDate t) : ValidDate (predDay t) := by
  obtain ⟨h1, h2, h3, h4⟩ := h
  unfold predDay ValidDate
  split
  · dsimp only
    exact ⟨h1, h2, by omega, by omega⟩
  · split
    · dsimp only
      refine ⟨by omega, by omega, monthLength_pos _ _, le_refl _⟩
    · dsimp only
      exact ⟨by omega, by omega, by omega, by norm_num [monthLength]⟩

theorem toDays_succDay {t : Date} (h : ValidDate t) :
    toDays (succDay t) = toDays t + 1 := by
  obtain ⟨h1, h2, h3, h4⟩ := h
  have ht : toDays ⟨t.year, t.month, t.day⟩ = toDays t := by cases t; rfl
  unfold succDay
  split
  · rename_i hd
    rw [toDays_split t.year t.month (t.day + 1) h1 h2, ← ht,
      toDays_split t.year t.month t.day h1 h2]
    omega
  · rename_i hd
    split
    · rename_i hm
      rw [toDays_split t.year (t.month + 1) 1 (by omega) (by omega), ← ht,
        toDays_split t.year t.month t.day h1 h2,
        cumd_step t.year t.month h1 (by omega)]
      omega
    · rename_i hm
      have hm12 : t.month = 12 := by omega
      have hlen : monthLength t.year 12 = 31 := by norm_num [monthLength]
      have hd31 : t.day = 31 := by
        rw [hm12] at h4 hd
        rw [hlen] at h4 hd
        omega
      have hj := jan1_next t.year
      have h12 : cumd t.year 12 = 334 + (if isLeap t.year then 1 else 0) := by
        cases hL : isLeap t.year with
        | true => simp [cumd, hL]
        | false => simp [cumd, hL]
      rw [← ht, hm12, hd31, toDays_split t.year 12 31 (by omega) (by omega), h12]
      cases hL : isLeap t.year with
      | true =>
        rw [hL] at hj
        simp at hj
        simp [hL]
        omega
      | false =>
        rw [hL] at hj
        simp at hj
        simp [hL]
        omega

theorem toDays_predDay {t : Date} (h : ValidDate t) :
    toDays (predDay t) = toDays t - 1 := by
  obtain ⟨h1, h2, h3, h4⟩ := h
  have ht : toDays ⟨t.year, t.month, t.day⟩ = toDays t := by cases t; rfl
  unfold predDay
  split
  · rename_i hd
    rw [toDays_split t.year t.month (t.day - 1) h1 h2, ← ht,
      toDays_split t.year t.month t.day h1 h2]
    omega
  · rename_i hd
    split
    · rename_i hm
      rw [toDays_split t.year (t.month - 1) (monthLength t.year (t.month - 1))
          (by omega) (by omega), ← ht,
        toDays_split t.year t.month t.day h1 h2]
      have hstep := cumd_step t.year (t.month - 1) (by omega) (by omega)
      have he : t.month - 1 + 1 = t.month := by omega
      rw [he] at hstep
      omega
    · rename_i hm
      have hm1 : t.month = 1 := by omega
      have hd1 : t.day = 1 := by omega
      have hj := jan1_next (t.year - 1)
      have he : t.year - 1 + 1 = t.year := by omega
      rw [he] at hj
      have h12 := toDays_split (t.year - 1) 12 31 (by omega) (by omega)
      have hc : cumd (t.year - 1) 12 = 334 + (if isLeap (t.year - 1) then 1 else 0) := by
        cases hL : isLeap (t.year - 1) with
        | true => simp [cumd, hL]
        | false => simp [cumd, hL]
      rw [← ht, hm1, hd1]
      cases hL : isLeap (t.year - 1) with
      | true => rw [hL] at hj hc; simp at hj hc; omega
      | false => rw [hL] at hj hc; simp at hj hc; omega

/-- `addDays k` (only nonnegative shifts are needed). -/
def addDaysNat : Nat → Date → Date
  | 0, t => t
  | k + 1, t => addDaysNat k (succDay t)

/-- `subDays k`. -/
def subDaysNat : Nat → Date → Date
  | 0, t => t
  | k + 1, t => subDaysNat k (predDay t)

theorem addDaysNat_valid : ∀ (k : Nat) {t : Date}, ValidDate t →
    ValidDate (addDaysNat k t) := by
  intro k
  induction k with
  | zero => intro t h; exact h
  | succ n ih => intro t h; exact ih (succDay_valid h)

theorem subDaysNat_valid : ∀ (k : Nat) {t : Date}, ValidDate t →
    ValidDate (subDaysNat k t) := by
  intro k
  induction k with
  | zero => intro t h; exact h
  | succ n ih => intro t h; exact ih (predDay_valid h)

theorem toDays_addDaysNat : ∀ (k : Nat) {t : Date}, ValidDate t →
    toDays (addDaysNat k t) = toDays t + k := by
  intro k
  induction k with
  | zero => intro t h; simp [addDaysNat]
  | succ n ih =>
    intro t h
    have := ih (succDay_valid h)
    rw [addDaysNat, this, toDays_succDay h]
    omega

theorem toDays_subDaysNat : ∀ (k : Nat) {t : Date}, ValidDate t →
    toDays (subDaysNat k t) = toDays t - k := by
  intro k
  induction k with
  | zero => intro t h; simp [subDaysNat]
  | succ n ih =>
    intro t h
    have := ih (predDay_valid h)
    rw [subDaysNat, this, toDays_predDay h]
    omega

/-! ### date-fns layer -/

/-- JS `Date.prototype.getDay` (0 = Sunday): 1970-01-01 was a Thursday. -/
def getDay (t : Date) : Int := (toDays t + 4) % 7

/-- date-fns `startOfWeek` with `weekStartsOn: 1`:
`diff = (day < 1 ? 7 : 0) + day - 1`, i.e. `(day + 6) % 7` for `day` 0-6. -/
def startOfWeekM (t : Date) : Date := subDaysNat ((getDay t + 6) % 7).toNat t

/-- date-fns `endOfWeek` with `weekStartsOn: 1`: the start of the week plus six
days (its `diff` is `6 - (day - 1)` adjusted mod 7). -/
def endOfWeekM (t : Date) : Date := addDaysNat 6 (startOfWeekM t)

def startOfYearD (t : Date) : Date := ⟨t.year, 1, 1⟩

def endOfYearD (t : Date) : Date := ⟨t.year, 12, 31⟩

def startOfMonthD (t : Date) : Date := ⟨t.year, t.month, 1⟩

def endOfMonthD (t : Date) : Date := ⟨t.year, t.month, monthLength t.year t.month⟩

/-- date-fns `getQuarter` = `trunc(getMonth()/3)+1` with 0-based months. -/
def getQuarterD (t : Date) : Int := (t.month - 1) / 3 + 1

def startOfQuarterD (t : Date) : Date := ⟨t.year, 3 * ((t.month - 1) / 3) + 1, 1⟩

def endOfQuarterD (t : Date) : Date :=
  ⟨t.year, 3 * ((t.month - 1) / 3) + 3,
    monthLength t.year (3 * ((t.month - 1) / 3) + 3)⟩

/-- date-fns `addMonths(date, 1)`: bump the month, clamp the day. -/
def addMonths1 (t : Date) : Date :=
  if t.month < 12 then ⟨t.year, t.month + 1, min t.day (monthLength t.year (t.month + 1))⟩
  else ⟨t.year + 1, 1, min t.day (monthLength (t.year + 1) 1)⟩

/-- date-fns `addYears(date, n)`: shift the year, clamp the day (Feb 29). -/
def addYearsN (t : Date) (n : Int) : Date :=
  ⟨t.year + n, t.month, min t.day (monthLength (t.year + n) t.month)⟩

/-- date-fns `getWeekYear` with `weekStartsOn: 1`, `firstWeekContainsDate: 1`
(the library defaults used by `getWeek(date, { weekStartsOn: 1 })`). -/
def getWeekYear (t : Date) : Int :=
  if toDays t ≥ toDays (startOfWeekM ⟨t.year + 1, 1, 1⟩) then t.year + 1
  else if toDays t ≥ toDays (startOfWeekM ⟨t.year, 1, 1⟩) then t.year else t.year - 1

/-- date-fns `getWeek(date, { weekStartsOn: 1 })`: calendar weeks between the
start of the date's week and the start of the week of January 1 of the week
year, plus one (both are Mondays, so the difference is an exact multiple of
seven days). -/
def getWeekM (t : Date) : Int :=
  (toDays (startOfWeekM t) - toDays (startOfWeekM ⟨getWeekYear t, 1, 1⟩)) / 7 + 1

/-- English month name (date-fns `format(date, 'MMMM')`, default locale). -/
def monthName (m : Int) : String :=
  if m = 1 then "January" else if m = 2 then "February" else if m = 3 then "March"
  else if m = 4 then "April" else if m = 5 then "May" else if m = 6 then "June"
  else if m = 7 then "July" else if m = 8 then "August" else if m = 9 then "September"
  else if m = 10 then "October" else if m = 11 then "November"
  else if m = 12 then "December" else ""

/-- `format(date, 'MMMM').toLowerCase()` (the path segments). -/
def monthNameLower (m : Int) : String :=
  if m = 1 then "january" else if m = 2 then "february" else if m = 3 then "march"
  else if m = 4 then "april" else if m = 5 then "may" else if m = 6 then "june"
  else if m = 7 then "july" else if m = 8 then "august" else if m = 9 then "september"
  else if m = 10 then "october" else if m = 11 then "november"
  else if m = 12 then "december" else ""

/-- `format(date, 'yyyy')`: the year zero-padded to four digits. -/
def pad4 (y : Int) : String :=
  let s := toString y.natAbs
  let s := String.mk (List.replicate (4 - s.length) '0') ++ s
  if y < 0 then "-" ++ s else s

/-- `String(n).padStart(2, '0')`. -/
def padStart2 (s : String) : String :=
  String.mk (List.replicate (2 - s.length) '0') ++ s

/-! ### Period calculator (src/unnamed/part_000) -/

inductive PeriodType where
  | vision | yearly | quarterly | monthly | weekly
deriving DecidableEq, Repr

structure PeriodInfo where
  type : PeriodType
  year : Int
  quarter : Option Int := none
  month : Option Int := none
  week : Option Int := none
  label : String
  start : Date
  endD : Date
  isCurrent : Bool
deriving DecidableEq, Repr

/-- `getCurrentPeriod` (src/unnamed/part_000 lines 24-87).  `getMonth(date)+1`
is the civil month; `getWeek(date, { weekStartsOn: 1 })` is `getWeekM`;
`format(date, 'MMMM yyyy')` is the month name plus the padded year. -/
def getCurrentPeriod (ty : PeriodType) (d : Date) : PeriodInfo :=
  match ty with
  | .vision =>
    { type := .vision
      year := d.year + 2
      label := "Vision " ++ toString (d.year + 2)
      start := startOfYearD d
      endD := endOfYearD (addYearsN d 2)
      isCurrent := true }
  | .yearly =>
    { type := .yearly
      year := d.year
      label := toString d.year
      start := startOfYearD d
      endD := endOfYearD d
      isCurrent := true }
  | .quarterly =>
    { type := .quarterly
      year := d.year
      quarter := some (getQuarterD d)
      label := "Q" ++ toString (getQuarterD d) ++ " " ++ toString d.year
      start := startOfQuarterD d
      endD := endOfQuarterD d
      isCurrent := true }
  | .monthly =>
    { type := .monthly
      year := d.year
      quarter := some (getQuarterD d)
      month := some d.month
      label := monthName d.month ++ " " ++ pad4 d.year
      start := startOfMonthD d
      endD := endOfMonthD d
      isCurrent := true }
  | .weekly =>
    { type := .weekly
      year := d.year
      quarter := some (getQuarterD d)
      month := some d.month
      week := some (getWeekM d)
      label := "Week " ++ toString (getWeekM d) ++ ", " ++ toString d.year
      start := startOfWeekM d
      endD := endOfWeekM d
      isCurrent := true }

/-- `new Date(year, month0, 1)`: the JS constructor maps years 0-99 to
1900-1999 (all the calculator's constructor calls use day 1). -/
def mkJsDate (y m0 : Int) : Date :=
  ⟨if 0 ≤ y ∧ y ≤ 99 then y + 1900 else y, m0 + 1, 1⟩

/-- `isWithinInterval(now, { start, end })`. -/
def isWithin (now : Date) (p : PeriodInfo) : Bool :=
  decide (toDays p.start ≤ toDays now ∧ toDays now ≤ toDays p.endD)

/-- The weekly loop of `getPeriodsForYear` (src/unnamed/part_000 lines
113-123): iterate `addWeeks 1` from the start of the year while `getYear` of
the anchor equals the target year; the inner `period.year === year` check
compares the same calendar year and never fires.  `fuel` only bounds the
iteration count: the loop provably exits after at most 53 steps (see
`weeklyGo_length`). -/
def weeklyGo (now : Date) (year : Int) : Nat → Date → List PeriodInfo
  | 0, _ => []
  | fuel + 1, wd =>
    if wd.year = year then
      (let p := getCurrentPeriod .weekly wd
       if p.year = year then
         [{ p with isCurrent := isWithin now p }]
       else []) ++ weeklyGo now year fuel (addDaysNat 7 wd)
    else []

/-- `getPeriodsForYear` (src/unnamed/part_000 lines 90-127); the `vision` and
`yearly` switch cases are absent in the source and return the empty list. -/
def getPeriodsForYear (now : Date) (ty : PeriodType) (year : Int) : List PeriodInfo :=
  match ty with
  | .quarterly =>
    ([1, 2, 3, 4] : List Int).map (fun q =>
      let p := getCurrentPeriod .quarterly (mkJsDate year ((q - 1) * 3))
      { p with isCurrent := isWithin now p })
  | .monthly =>
    (List.range 12).map (fun m =>
      let p := getCurrentPeriod .monthly (mkJsDate year (Int.ofNat m))
      { p with isCurrent := isWithin now p })
  | .weekly => weeklyGo now year 60 (startOfYearD (mkJsDate year 0))
  | _ => []

/-- `getParentPeriod` (src/unnamed/part_000 lines 130-143). -/
def getParentPeriod (p : PeriodInfo) : Option PeriodInfo :=
  match p.type with
  | .weekly => some (getCurrentPeriod .monthly p.start)
  | .monthly => some (getCurrentPeriod .quarterly p.start)
  | .quarterly => some (getCurrentPeriod .yearly p.start)
  | .yearly => some (getCurrentPeriod .vision p.start)
  | .vision => none

/-- The vision loop of `getChildPeriods`: step `addYears 1` while
`yearDate <= period.end` (at most four iterations for calculator output). -/
def visionChildrenGo (endD : Date) : Nat → Date → List PeriodInfo
  | 0, _ => []
  | fuel + 1, yd =>
    if toDays yd ≤ toDays endD then
      getCurrentPeriod .yearly yd :: visionChildrenGo endD fuel (addYearsN yd 1)
    else []

/-- The quarterly loop of `getChildPeriods`: step `addMonths 1`. -/
def quarterChildrenGo (endD : Date) : Nat → Date → List PeriodInfo
  | 0, _ => []
  | fuel + 1, md =>
    if toDays md ≤ toDays endD then
      getCurrentPeriod .monthly md :: quarterChildrenGo endD fuel (addMonths1 md)
  else []

/-- The monthly loop of `getChildPeriods`: step `addWeeks 1`, keeping weeks
with `weekPeriod.start >= period.start || weekPeriod.end <= period.end`. -/
def monthChildrenGo (startD endD : Date) : Nat → Date → List PeriodInfo
  | 0, _ => []
  | fuel + 1, wd =>
    if toDays wd ≤ toDays endD then
      (let wp := getCurrentPeriod .weekly wd
       if toDays wp.start ≥ toDays startD ∨ toDays wp.endD ≤ toDays endD then
         [wp]
       else []) ++ monthChildrenGo startD endD fuel (addDaysNat 7 wd)
    else []

/-- `getChildPeriods` (src/unnamed/part_000 lines 146-186).  The three `while`
loops run at most 4, 4 and 6 iterations on calculator output; `fuel = 10` is a
strict upper bound (each claim proof shows the loop exits first). -/
def getChildPeriods (now : Date) (p : PeriodInfo) : List PeriodInfo :=
  match p.type with
  | .vision => visionChildrenGo p.endD 10 p.start
  | .yearly => getPeriodsForYear now .quarterly p.year
  | .quarterly => quarterChildrenGo p.endD 10 p.start
  | .monthly => monthChildrenGo p.start p.endD 10 p.start
  | .weekly => []

/-- `periodToPath` (src/unnamed/part_000 lines 189-205).  An absent
quarter/week field would interpolate as the string `undefined`, as in JS. -/
def periodToPath (p : PeriodInfo) : String :=
  match p.type with
  | .vision => "vision/" ++ toString p.year ++ ".md"
  | .yearly => "goals/" ++ toString p.year ++ "/yearly.md"
  | .quarterly =>
    "goals/" ++ toString p.year ++ "/q" ++ optIntStr p.quarter ++ "/quarterly.md"
  | .monthly =>
    "goals/" ++ toString p.year ++ "/q" ++ optIntStr p.quarter ++ "/" ++
      monthNameLower p.start.month ++ "/monthly.md"
  | .weekly =>
    "goals/" ++ toString p.year ++ "/q" ++ optIntStr p.quarter ++ "/" ++
      monthNameLower p.start.month ++ "/week-" ++
      padStart2 (optIntStr p.week) ++ ".md"

/-- Claim C7: the weekly period for 2025-01-15 (a Wednesday) under the
calculator's Monday-start week numbering has week 3, month 1, quarter 1,
year 2025, and its storage path (from the week's start date, Monday
2025-01-13) is `goals/2025/q1/january/week-03.md`. -/
theorem weekly_scenario_2025_01_15 :
    (getCurrentPeriod .weekly ⟨2025, 1, 15⟩).week = some 3 ∧
    (getCurrentPeriod .weekly ⟨2025, 1, 15⟩).month = some 1 ∧
    (getCurrentPeriod .weekly ⟨2025, 1, 15⟩).quarter = some 1 ∧
    (getCurrentPeriod .weekly ⟨2025, 1, 15⟩).year = 2025 ∧
    (getCurrentPeriod .weekly ⟨2025, 1, 15⟩).start = ⟨2025, 1, 13⟩ ∧
    periodToPath (getCurrentPeriod .weekly ⟨2025, 1, 15⟩)
      = "goals/2025/q1/january/week-03.md" := by
  refine ⟨?_, ?_, ?_, ?_, ?_, ?_⟩ <;> decide

/-- Claim C5: every period produced by `getCurrentPeriod` contains its anchor
date, `start <= d <= end`; for `vision` the guarantee is `start <= d` (the
claim only asserts the lower bound there, the end being two years out). -/
theorem currentPeriod_contains_anchor (ty : PeriodType) (d : Date)
    (h : ValidDate d) :
    toDays (getCurrentPeriod ty d).start ≤ toDays d ∧
    (ty ≠ PeriodType.vision → toDays d ≤ toDays (getCurrentPeriod ty d).endD) := by
  obtain ⟨h1, h2, h3, h4⟩ := h
  have ht : toDays ⟨d.year, d.month, d.day⟩ = toDays d := by cases d; rfl
  cases ty with
  | vision =>
    constructor
    · have hb := toDays_year_bounds (t := d) ⟨h1, h2, h3, h4⟩
      simpa [getCurrentPeriod, startOfYearD] using hb.1
    · intro hne; exact absurd rfl hne
  | yearly =>
    have hb := toDays_year_bounds (t := d) ⟨h1, h2, h3, h4⟩
    refine ⟨by simpa [getCurrentPeriod, startOfYearD] using hb.1, fun _ => ?_⟩
    simpa [getCurrentPeriod, endOfYearD] using hb.2
  | monthly =>
    have hs := toDays_split d.year d.month 1 h1 h2
    have he := toDays_split d.year d.month (monthLength d.year d.month) h1 h2
    have hd := toDays_split d.year d.month d.day h1 h2
    rw [ht] at hd
    refine ⟨?_, fun _ => ?_⟩
    · simp only [getCurrentPeriod, startOfMonthD]
      omega
    · simp only [getCurrentPeriod, endOfMonthD]
      omega
  | quarterly =>
    have hs := toDays_split d.year (3 * ((d.month - 1) / 3) + 1) 1
      (by omega) (by omega)
    have he := toDays_split d.year (3 * ((d.month - 1) / 3) + 3)
      (monthLength d.year (3 * ((d.month - 1) / 3) + 3)) (by omega) (by omega)
    have hd := toDays_split d.year d.month d.day h1 h2
    rw [ht] at hd
    have hmono1 := cumd_mono d.year (3 * ((d.month - 1) / 3) + 1) d.month
      (by omega) (by omega) h2
    have hlen3 := monthLength_pos d.year (3 * ((d.month - 1) / 3) + 3)
    refine ⟨?_, fun _ => ?_⟩
    · simp only [getCurrentPeriod, startOfQuarterD]
      omega
    · simp only [getCurrentPeriod, endOfQuarterD]
      rcases eq_or_lt_of_le (show d.month ≤ 3 * ((d.month - 1) / 3) + 3 from
        by omega) with heq | hlt
      · rw [← heq] at he
        rw [← heq]
        omega
      · have hstep := cumd_step d.year d.month h1 (by omega)
        have hmono2 := cumd_mono d.year (d.month + 1)
          (3 * ((d.month - 1) / 3) + 3) (by omega) (by omega) (by omega)
        omega
  | weekly =>
    have hval : ValidDate d := ⟨h1, h2, h3, h4⟩
    have hshift : (getDay d + 6) % 7 < 7 := Int.emod_lt_of_pos _ (by norm_num)
    have hshift0 : 0 ≤ (getDay d + 6) % 7 := Int.emod_nonneg _ (by norm_num)
    have hsow := toDays_subDaysNat ((getDay d + 6) % 7).toNat hval
    have hsowv := subDaysNat_valid ((getDay d + 6) % 7).toNat hval
    refine ⟨?_, fun _ => ?_⟩
    · simp only [getCurrentPeriod, startOfWeekM]
      rw [hsow]
      omega
    · simp only [getCurrentPeriod, endOfWeekM, startOfWeekM]
      rw [toDays_addDaysNat 6 hsowv, hsow]
      omega

/-- Witness for C5 at the weekly period of 2025-01-15. -/
theorem currentPeriod_contains_anchor_witness :
    toDays (getCurrentPeriod .weekly ⟨2025, 1, 15⟩).start ≤ toDays ⟨2025, 1, 15⟩ ∧
    (PeriodType.weekly ≠ PeriodType.vision →
      toDays ⟨2025, 1, 15⟩ ≤ toDays (getCurrentPeriod .weekly ⟨2025, 1, 15⟩).endD) :=
  currentPeriod_contains_anchor .weekly ⟨2025, 1, 15⟩ (by decide)

set_option maxRecDepth 40000 in
/-- Claim C6, counterexample.  For 2025 the weekly list has 53 entries - and
its last entry is the boundary week anchored 2025-12-30, whose computed week
number is 1 (its week-year is 2026): a boundary week whose week-year differs
from the target year is included, not excluded, because the loop's inner check
compares the anchor's calendar year with itself. -/
theorem periodsForYear_weekly_cex :
    (getPeriodsForYear ⟨2025, 6, 1⟩ .weekly 2025).length = 53 ∧
    ((getPeriodsForYear ⟨2025, 6, 1⟩ .weekly 2025).getLast?).map
        (fun p => (p.week, p.year, p.start)) =
      some (some 1, 2025, ⟨2025, 12, 29⟩) := by
  constructor <;> decide

theorem weeklyGo_stop (now : Date) (year : Int) (wd : Date)
    (h : ¬wd.year = year) : ∀ n : Nat, weeklyGo now year n wd = [] := by
  intro n
  cases n with
  | zero => rfl
  | succ m => simp [weeklyGo, h]

theorem addDaysNat_comp (a b : Nat) (t : Date) :
    addDaysNat a (addDaysNat b t) = addDaysNat (a + b) t := by
  induction b generalizing t with
  | zero => simp [addDaysNat]
  | succ m ih =>
    have h1 : addDaysNat (m + 1) t = addDaysNat m (succDay t) := rfl
    have h2 : addDaysNat (a + (m + 1)) t = addDaysNat (a + m) (succDay t) := by
      rw [show a + (m + 1) = (a + m) + 1 by omega]
      rfl
    rw [h1, h2, ih]

theorem jan1_valid (Y : Int) : ValidDate ⟨Y, 1, 1⟩ := by
  refine ⟨by norm_num, by norm_num, by norm_num, ?_⟩
  norm_num [monthLength]

/-- The weekly loop pushes exactly one period per week anchored inside year
`Y` and stops at the first anchor beyond it: 53 - k entries remain from the
k-th week anchor on. -/
theorem weeklyGo_len (now : Date) (Y : Int) :
    ∀ (n k : Nat), k ≤ 53 → 53 - k < n →
      (weeklyGo now Y n (addDaysNat (7 * k) ⟨Y, 1, 1⟩)).length = 53 - k := by
  intro n
  induction n with
  | zero => intro k _ h; omega
  | succ m ih =>
    intro k hk hfuel
    have hv : ValidDate (addDaysNat (7 * k) ⟨Y, 1, 1⟩) :=
      addDaysNat_valid (7 * k) (jan1_valid Y)
    have htd : toDays (addDaysNat (7 * k) ⟨Y, 1, 1⟩)
        = toDays ⟨Y, 1, 1⟩ + (7 * k : Nat) := toDays_addDaysNat (7 * k) (jan1_valid Y)
    have hnext := jan1_next Y
    have hd31 := dec31_lt_jan1 Y
    rcases Nat.lt_or_ge k 53 with hlt | hge
    · -- still inside year Y
      have hyear : (addDaysNat (7 * k) ⟨Y, 1, 1⟩).year = Y := by
        refine year_of_toDays hv Y (by omega) ?_
        have hb : (7 * k : Int) ≤ 364 := by
          have : (k : Int) ≤ 52 := by exact_mod_cast Nat.le_of_lt_succ hlt
          omega
        split at hnext <;> omega
      have hpy : (getCurrentPeriod .weekly (addDaysNat (7 * k) ⟨Y, 1, 1⟩)).year = Y := by
        simp [getCurrentPeriod, hyear]
      rw [weeklyGo]
      rw [if_pos hyear]
      simp only [hpy, if_pos]
      rw [addDaysNat_comp 7 (7 * k) ⟨Y, 1, 1⟩,
        show 7 + 7 * k = 7 * (k + 1) by omega]
      have := ih (k + 1) (by omega) (by omega)
      simp only [List.singleton_append, List.length_cons, this]
      omega
    · -- k = 53: the anchor has left year Y
      have hk53 : k = 53 := by omega
      subst hk53
      have hyear : ¬(addDaysNat (7 * 53) ⟨Y, 1, 1⟩).year = Y := by
        intro hy
        have hb := (toDays_year_bounds hv).2
        rw [hy] at hb
        have h12 := toDays_split Y 12 31 (by omega) (by omega)
        have hcv : cumd Y 12 ≤ 335 := by
          cases hL : isLeap Y with
          | true => simp [cumd, hL]
          | false => simp [cumd, hL]
        have : ((7 * 53 : Nat) : Int) = 371 := by norm_num
        omega
      rw [weeklyGo, if_neg hyear]
      simp

/-- Claim C6 (amended): `getPeriodsForYear('weekly', Y)` iterates `addWeeks`
from the start of the year while the anchor's calendar year still equals `Y`;
the inner `period.year === year` check compares that same calendar year and
never excludes anything, so no boundary week is dropped and the list always
has exactly 53 entries - never 52 - for every year outside the JS two-digit
range, and is empty for years 0-99 (where `new Date(year, 0, 1)` maps the
year to 1900+year, so the loop condition fails immediately). -/
theorem periodsForYear_weekly_amended (now : Date) (year : Int) :
    (getPeriodsForYear now .weekly year).length
      = if 0 ≤ year ∧ year ≤ 99 then 0 else 53 := by
  unfold getPeriodsForYear
  by_cases hq : 0 ≤ year ∧ year ≤ 99
  · rw [if_pos hq]
    have hne : ¬(startOfYearD (mkJsDate year 0)).year = year := by
      simp only [mkJsDate, startOfYearD, if_pos hq]
      omega
    rw [weeklyGo_stop now year _ hne 60]
    rfl
  · rw [if_neg hq]
    have he : startOfYearD (mkJsDate year 0) = ⟨year, 1, 1⟩ := by
      simp only [mkJsDate, startOfYearD, if_neg hq]
    rw [he]
    have := weeklyGo_len now year 60 0 (by omega) (by omega)
    simpa [addDaysNat] using this

/-! ### Parent/child round trip (claim C3) -/

theorem quarterGo_cons (e : Date) (n : Nat) (md : Date)
    (h : toDays md ≤ toDays e) :
    quarterChildrenGo e (n + 1) md
      = getCurrentPeriod .monthly md :: quarterChildrenGo e n (addMonths1 md) := by
  simp [quarterChildrenGo, h]

theorem quarterGo_stop (e : Date) (n : Nat) (md : Date)
    (h : ¬toDays md ≤ toDays e) : quarterChildrenGo e n md = [] := by
  cases n with
  | zero => rfl
  | succ m => simp [quarterChildrenGo, h]

theorem visionGo_cons (e : Date) (n : Nat) (yd : Date)
    (h : toDays yd ≤ toDays e) :
    visionChildrenGo e (n + 1) yd
      = getCurrentPeriod .yearly yd :: visionChildrenGo e n (addYearsN yd 1) := by
  simp [visionChildrenGo, h]

/-- Days within one month bracket each other. -/
theorem toDays_le_months (y m1 d1 m2 d2 : Int) (h1 : 1 ≤ m1) (hm : m1 ≤ m2)
    (h2 : m2 ≤ 12) (hd1 : d1 ≤ monthLength y m1) (_hd1p : 1 ≤ d1)
    (hd2 : 1 ≤ d2) (hcase : m1 = m2 → d1 ≤ d2) :
    toDays ⟨y, m1, d1⟩ ≤ toDays ⟨y, m2, d2⟩ := by
  have hs1 := toDays_split y m1 d1 h1 (by omega)
  have hs2 := toDays_split y m2 d2 (by omega) h2
  rcases eq_or_lt_of_le hm with heq | hlt
  · subst heq
    have := hcase rfl
    omega
  · have hstep := cumd_step y m1 h1 (by omega)
    have hmono := cumd_mono y (m1 + 1) m2 (by omega) (by omega) h2
    omega

/-- A valid date whose day number lies within month `m` of year `y` has
exactly that year and month. -/
theorem month_of_toDays {t : Date} (h : ValidDate t) (y m : Int)
    (hm1 : 1 ≤ m) (hm2 : m ≤ 12)
    (hlo : toDays ⟨y, m, 1⟩ ≤ toDays t)
    (hhi : toDays t ≤ toDays ⟨y, m, monthLength y m⟩) :
    t.year = y ∧ t.month = m := by
  obtain ⟨h1, h2, h3, h4⟩ := h
  have ht : toDays ⟨t.year, t.month, t.day⟩ = toDays t := by cases t; rfl
  have hub : toDays ⟨y, m, monthLength y m⟩ ≤ toDays ⟨y, 12, 31⟩ :=
    toDays_le_months y m (monthLength y m) 12 31 hm1 hm2 (by omega)
      (le_refl _) (monthLength_pos y m) (by omega)
      (fun he => by rw [he]; exact monthLength_le y 12)
  have hy : t.year = y := by
    refine year_of_toDays ⟨h1, h2, h3, h4⟩ y ?_ ?_
    · have := toDays_le_months y 1 1 m 1 (by omega) hm1 hm2
        (monthLength_pos y 1) (by omega) (by omega) (fun he => by omega)
      omega
    · have := dec31_lt_jan1 y
      omega
  refine ⟨hy, ?_⟩
  subst hy
  have hsm1 := toDays_split t.year m 1 hm1 hm2
  have hsm2 := toDays_split t.year m (monthLength t.year m) hm1 hm2
  have hst := toDays_split t.year t.month t.day h1 h2
  rw [ht] at hst
  by_contra hne
  rcases Int.lt_or_lt_of_ne hne with hlt | hlt
  · -- t.month < m: t ends before month m starts
    have hstep := cumd_step t.year t.month h1 (by omega)
    have hmono := cumd_mono t.year (t.month + 1) m (by omega) (by omega) (by omega)
    omega
  · -- m < t.month
    have hstep := cumd_step t.year m (by omega) (by omega)
    have hmono := cumd_mono t.year (m + 1) t.month (by omega) (by omega) h2
    omega

/-- The week anchors walked by the month loop, with their invariants: the
`i`-th surviving element is the weekly period anchored `7(k+i)` days into the
month, and that anchor is still within the month. -/
theorem monthChildren_elem (y m : Int) (hm1 : 1 ≤ m) (hm2 : m ≤ 12) :
    ∀ (n k i : Nat) (c : PeriodInfo),
      (monthChildrenGo ⟨y, m, 1⟩ ⟨y, m, monthLength y m⟩ n
          (addDaysNat (7 * k) ⟨y, m, 1⟩))[i]? = some c →
      c = getCurrentPeriod .weekly (addDaysNat (7 * (k + i)) ⟨y, m, 1⟩) ∧
      toDays (addDaysNat (7 * (k + i)) ⟨y, m, 1⟩) ≤ toDays ⟨y, m, monthLength y m⟩ := by
  have hbase : ValidDate ⟨y, m, 1⟩ :=
    ⟨hm1, hm2, le_refl 1, monthLength_pos y m⟩
  intro n
  induction n with
  | zero => intro k i c hc; simp [monthChildrenGo] at hc
  | succ nn ih =>
    intro k i c hc
    by_cases hcond : toDays (addDaysNat (7 * k) ⟨y, m, 1⟩) ≤ toDays ⟨y, m, monthLength y m⟩
    · have hfilter : toDays (getCurrentPeriod .weekly
            (addDaysNat (7 * k) ⟨y, m, 1⟩)).start ≥ toDays ⟨y, m, 1⟩ ∨
          toDays (getCurrentPeriod .weekly
            (addDaysNat (7 * k) ⟨y, m, 1⟩)).endD ≤ toDays ⟨y, m, monthLength y m⟩ := by
        have hv := addDaysNat_valid (7 * k) hbase
        have htd := toDays_addDaysNat (7 * k) hbase
        have hml28 : 28 ≤ monthLength y m := by
          unfold monthLength
          split
          · split <;> omega
          · split <;> omega
        have hsh0 : 0 ≤ (getDay (addDaysNat (7 * k) ⟨y, m, 1⟩) + 6) % 7 :=
          Int.emod_nonneg _ (by norm_num)
        have hsh7 : (getDay (addDaysNat (7 * k) ⟨y, m, 1⟩) + 6) % 7 < 7 :=
          Int.emod_lt_of_pos _ (by norm_num)
        have hsow := toDays_subDaysNat
          ((getDay (addDaysNat (7 * k) ⟨y, m, 1⟩) + 6) % 7).toNat hv
        have hsowv := subDaysNat_valid
          ((getDay (addDaysNat (7 * k) ⟨y, m, 1⟩) + 6) % 7).toNat hv
        have hsp1 := toDays_split y m 1 hm1 hm2
        have hspL := toDays_split y m (monthLength y m) hm1 hm2
        simp only [getCurrentPeriod, startOfWeekM, endOfWeekM]
        rw [toDays_addDaysNat 6 hsowv]
        rw [hsow]
        rcases le_or_lt (((getDay (addDaysNat (7 * k) ⟨y, m, 1⟩) + 6) % 7).toNat) (7 * k)
          with hle | hgt
        · left
          omega
        · right
          omega
      simp only [monthChildrenGo] at hc
      rw [if_pos hcond, if_pos hfilter] at hc
      cases i with
      | zero =>
        simp only [List.singleton_append, List.getElem?_cons_zero,
          Option.some.injEq] at hc
        subst hc
        exact ⟨by rw [Nat.add_zero], by rw [Nat.add_zero]; exact hcond⟩
      | succ i' =>
        simp only [List.singleton_append, List.getElem?_cons_succ] at hc
        rw [addDaysNat_comp 7 (7 * k) ⟨y, m, 1⟩,
          show 7 + 7 * k = 7 * (k + 1) by omega] at hc
        have := ih (k + 1) i' c hc
        rwa [show k + 1 + i' = k + (i' + 1) by omega] at this
    · simp only [monthChildrenGo] at hc
      rw [if_neg hcond] at hc
      simp at hc

/-- `periodToPath` of a vision period, in terms of the anchor date. -/
theorem vision_path (t : Date) :
    periodToPath (getCurrentPeriod .vision t)
      = "vision/" ++ toString (t.year + 2) ++ ".md" := rfl

theorem yearly_path (t : Date) :
    periodToPath (getCurrentPeriod .yearly t)
      = "goals/" ++ toString t.year ++ "/yearly.md" := rfl

theorem quarterly_path (t : Date) :
    periodToPath (getCurrentPeriod .quarterly t)
      = "goals/" ++ toString t.year ++ "/q" ++ toString ((t.month - 1) / 3 + 1)
        ++ "/quarterly.md" := rfl

theorem monthly_path (t : Date) :
    periodToPath (getCurrentPeriod .monthly t)
      = "goals/" ++ toString t.year ++ "/q" ++ toString ((t.month - 1) / 3 + 1)
        ++ "/" ++ monthNameLower t.month ++ "/monthly.md" := rfl

/-- `addMonths(-, 1)` from the first of a month before December. -/
theorem addMonths1_first (y m : Int) (hm : m < 12) :
    addMonths1 ⟨y, m, 1⟩ = ⟨y, m + 1, 1⟩ := by
  unfold addMonths1
  dsimp only
  rw [if_pos hm, min_eq_left (monthLength_pos y (m + 1))]

/-- `addMonths(-, 1)` from December 1 rolls into January. -/
theorem addMonths1_dec (y : Int) :
    addMonths1 ⟨y, 12, 1⟩ = ⟨y + 1, 1, 1⟩ := by
  unfold addMonths1
  dsimp only
  rw [if_neg (by omega), min_eq_left (monthLength_pos (y + 1) 1)]

/-- The quarterly children loop produces exactly the three month periods of
the quarter. -/
theorem quarterChildren_eval (now d : Date) (h : ValidDate d) :
    getChildPeriods now (getCurrentPeriod .quarterly d)
      = [getCurrentPeriod .monthly ⟨d.year, 3 * ((d.month - 1) / 3) + 1, 1⟩,
         getCurrentPeriod .monthly ⟨d.year, 3 * ((d.month - 1) / 3) + 2, 1⟩,
         getCurrentPeriod .monthly ⟨d.year, 3 * ((d.month - 1) / 3) + 3, 1⟩] := by
  obtain ⟨h1, h2, h3, h4⟩ := h
  have hk0 : 0 ≤ (d.month - 1) / 3 := by omega
  have hk3 : (d.month - 1) / 3 ≤ 3 := by omega
  have hL := monthLength_pos d.year (3 * ((d.month - 1) / 3) + 3)
  have hc1 : toDays ⟨d.year, 3 * ((d.month - 1) / 3) + 1, 1⟩
      ≤ toDays ⟨d.year, 3 * ((d.month - 1) / 3) + 3,
          monthLength d.year (3 * ((d.month - 1) / 3) + 3)⟩ :=
    toDays_le_months d.year _ 1 _ _ (by omega) (by omega) (by omega)
      (monthLength_pos _ _) (by omega) (by omega) (fun he => by omega)
  have hc2 : toDays ⟨d.year, 3 * ((d.month - 1) / 3) + 2, 1⟩
      ≤ toDays ⟨d.year, 3 * ((d.month - 1) / 3) + 3,
          monthLength d.year (3 * ((d.month - 1) / 3) + 3)⟩ :=
    toDays_le_months d.year _ 1 _ _ (by omega) (by omega) (by omega)
      (monthLength_pos _ _) (by omega) (by omega) (fun he => by omega)
  have hc3 : toDays ⟨d.year, 3 * ((d.month - 1) / 3) + 3, 1⟩
      ≤ toDays ⟨d.year, 3 * ((d.month - 1) / 3) + 3,
          monthLength d.year (3 * ((d.month - 1) / 3) + 3)⟩ :=
    toDays_le_months d.year _ 1 _ _ (by omega) (by omega) (by omega)
      (monthLength_pos _ _) (by omega) (by omega) (fun he => hL)
  have hstop : ¬ toDays (addMonths1 ⟨d.year, 3 * ((d.month - 1) / 3) + 3, 1⟩)
      ≤ toDays ⟨d.year, 3 * ((d.month - 1) / 3) + 3,
          monthLength d.year (3 * ((d.month - 1) / 3) + 3)⟩ := by
    by_cases hkk : 3 * ((d.month - 1) / 3) + 3 < 12
    · rw [addMonths1_first d.year _ hkk]
      have hs1 := toDays_split d.year (3 * ((d.month - 1) / 3) + 3 + 1) 1
        (by omega) (by omega)
      have hs2 := toDays_split d.year (3 * ((d.month - 1) / 3) + 3)
        (monthLength d.year (3 * ((d.month - 1) / 3) + 3)) (by omega) (by omega)
      have hstep := cumd_step d.year (3 * ((d.month - 1) / 3) + 3)
        (by omega) (by omega)
      omega
    · have hm12 : 3 * ((d.month - 1) / 3) + 3 = 12 := by omega
      rw [hm12, addMonths1_dec]
      have h31 : monthLength d.year 12 = 31 := by norm_num [monthLength]
      rw [h31]
      have := dec31_lt_jan1 d.year
      omega
  show quarterChildrenGo _ 10 _ = _
  simp only [getCurrentPeriod, startOfQuarterD, endOfQuarterD]
  rw [show (10 : Nat) = 9 + 1 from rfl, quarterGo_cons _ _ _ hc1]
  rw [addMonths1_first d.year _ (by omega),
    show 3 * ((d.month - 1) / 3) + 1 + 1 = 3 * ((d.month - 1) / 3) + 2 from by omega]
  rw [show (9 : Nat) = 8 + 1 from rfl, quarterGo_cons _ _ _ hc2]
  rw [addMonths1_first d.year _ (by omega),
    show 3 * ((d.month - 1) / 3) + 2 + 1 = 3 * ((d.month - 1) / 3) + 3 from by omega]
  rw [show (8 : Nat) = 7 + 1 from rfl, quarterGo_cons _ _ _ hc3]
  rw [quarterGo_stop _ _ _ hstop]
  rfl

/-- Round trip for one month of a quarter: the monthly child anchored at the
first of month `3k + j` has a parent whose path is the quarter's path. -/
theorem quarterly_parent_of_month (d : Date) (j : Int) (hj : 1 ≤ j) (hj3 : j ≤ 3) :
    ∃ par, getParentPeriod (getCurrentPeriod .monthly
        ⟨d.year, 3 * ((d.month - 1) / 3) + j, 1⟩) = some par ∧
      periodToPath par = periodToPath (getCurrentPeriod .quarterly d) := by
  refine ⟨_, rfl, ?_⟩
  rw [quarterly_path, quarterly_path]
  simp only [getCurrentPeriod, startOfMonthD]
  rw [show (3 * ((d.month - 1) / 3) + j - 1) / 3 = (d.month - 1) / 3 from by omega]

/-- Claim C3 (amended): the parent/child round trip through `getChildPeriods`
and `getParentPeriod` recovers a period with the same `periodToPath` for every
child of a quarterly period; for every child of a yearly period whose year is
outside the JS-Date remapped range 0-99; for the FIRST child of a vision
period (the later yearly children round-trip to later visions); and for every
child of a monthly period except possibly the first (whose week may start in
the previous month). -/
theorem parent_child_amended (now d : Date) (h : ValidDate d) :
    (∀ (i : Nat) (c : PeriodInfo),
      (getChildPeriods now (getCurrentPeriod .quarterly d))[i]? = some c →
      ∃ par, getParentPeriod c = some par ∧
        periodToPath par = periodToPath (getCurrentPeriod .quarterly d)) ∧
    (¬(0 ≤ d.year ∧ d.year ≤ 99) →
      ∀ (i : Nat) (c : PeriodInfo),
      (getChildPeriods now (getCurrentPeriod .yearly d))[i]? = some c →
      ∃ par, getParentPeriod c = some par ∧
        periodToPath par = periodToPath (getCurrentPeriod .yearly d)) ∧
    (∀ c : PeriodInfo,
      (getChildPeriods now (getCurrentPeriod .vision d))[0]? = some c →
      ∃ par, getParentPeriod c = some par ∧
        periodToPath par = periodToPath (getCurrentPeriod .vision d)) ∧
    (∀ (i : Nat) (c : PeriodInfo), 1 ≤ i →
      (getChildPeriods now (getCurrentPeriod .monthly d))[i]? = some c →
      ∃ par, getParentPeriod c = some par ∧
        periodToPath par = periodToPath (getCurrentPeriod .monthly d)) := by
  obtain ⟨h1, h2, h3, h4⟩ := h
  refine ⟨?_, ?_, ?_, ?_⟩
  · -- quarterly
    intro i c hc
    rw [quarterChildren_eval now d ⟨h1, h2, h3, h4⟩] at hc
    rcases i with _ | _ | _ | i
    · simp only [List.getElem?_cons_zero, Option.some.injEq] at hc
      subst hc
      exact quarterly_parent_of_month d 1 (by omega) (by omega)
    · simp only [List.getElem?_cons_succ, List.getElem?_cons_zero,
        Option.some.injEq] at hc
      subst hc
      exact quarterly_parent_of_month d 2 (by omega) (by omega)
    · simp only [List.getElem?_cons_succ, List.getElem?_cons_zero,
        Option.some.injEq] at hc
      subst hc
      exact quarterly_parent_of_month d 3 (by omega) (by omega)
    · simp at hc
  · -- yearly
    intro hns i c hc
    simp only [getChildPeriods, getCurrentPeriod, getPeriodsForYear,
      List.map_cons, List.map_nil, mkJsDate, if_neg hns] at hc
    rcases i with _ | _ | _ | _ | i
    · simp only [List.getElem?_cons_zero, Option.some.injEq] at hc
      subst hc
      refine ⟨_, rfl, ?_⟩
      rw [yearly_path, yearly_path]
      simp [startOfQuarterD]
    · simp only [List.getElem?_cons_succ, List.getElem?_cons_zero,
        Option.some.injEq] at hc
      subst hc
      refine ⟨_, rfl, ?_⟩
      rw [yearly_path, yearly_path]
      simp [startOfQuarterD]
    · simp only [List.getElem?_cons_succ, List.getElem?_cons_zero,
        Option.some.injEq] at hc
      subst hc
      refine ⟨_, rfl, ?_⟩
      rw [yearly_path, yearly_path]
      simp [startOfQuarterD]
    · simp only [List.getElem?_cons_succ, List.getElem?_cons_zero,
        Option.some.injEq] at hc
      subst hc
      refine ⟨_, rfl, ?_⟩
      rw [yearly_path, yearly_path]
      simp [startOfQuarterD]
    · simp at hc
  · -- vision: first child only
    intro c hc
    have hcond : toDays (⟨d.year, 1, 1⟩ : Date) ≤ toDays ⟨d.year + 2, 12, 31⟩ := by
      have ha := jan1_mono d.year 2
      norm_num at ha
      have hb := toDays_le_months (d.year + 2) 1 1 12 31 (by omega) (by omega)
        (by omega) (monthLength_pos _ 1) (by omega) (by omega) (fun he => by omega)
      omega
    have hcons : getChildPeriods now (getCurrentPeriod .vision d)
        = getCurrentPeriod .yearly ⟨d.year, 1, 1⟩
          :: visionChildrenGo ⟨d.year + 2, 12, 31⟩ 9
               (addYearsN ⟨d.year, 1, 1⟩ 1) := by
      show visionChildrenGo _ 10 _ = _
      simp only [getCurrentPeriod, startOfYearD, endOfYearD, addYearsN]
      rw [show (10 : Nat) = 9 + 1 from rfl, visionGo_cons _ _ _ hcond]
      rfl
    rw [hcons] at hc
    simp only [List.getElem?_cons_zero, Option.some.injEq] at hc
    subst hc
    refine ⟨_, rfl, ?_⟩
    rw [vision_path, vision_path]
    rfl
  · -- monthly: children after the first
    intro i c hi hc
    have hbase : ValidDate ⟨d.year, d.month, 1⟩ :=
      ⟨h1, h2, le_refl 1, monthLength_pos _ _⟩
    have hmc := monthChildren_elem d.year d.month h1 h2 10 0 i c hc
    rw [Nat.zero_add] at hmc
    obtain ⟨hceq, hin⟩ := hmc
    subst hceq
    set a := addDaysNat (7 * i) (⟨d.year, d.month, 1⟩ : Date) with ha
    have hv : ValidDate a := addDaysNat_valid (7 * i) hbase
    have htd : toDays a = toDays ⟨d.year, d.month, 1⟩ + (7 * i : Nat) :=
      toDays_addDaysNat (7 * i) hbase
    have hsh0 : 0 ≤ (getDay a + 6) % 7 := Int.emod_nonneg _ (by norm_num)
    have hsh7 : (getDay a + 6) % 7 < 7 := Int.emod_lt_of_pos _ (by norm_num)
    have hsow : toDays (startOfWeekM a)
        = toDays a - ((getDay a + 6) % 7).toNat :=
      toDays_subDaysNat ((getDay a + 6) % 7).toNat hv
    have hsowv : ValidDate (startOfWeekM a) :=
      subDaysNat_valid ((getDay a + 6) % 7).toNat hv
    have hlo : toDays ⟨d.year, d.month, 1⟩ ≤ toDays (startOfWeekM a) := by
      rw [hsow, htd]
      omega
    have hhi : toDays (startOfWeekM a)
        ≤ toDays ⟨d.year, d.month, monthLength d.year d.month⟩ := by
      rw [hsow]
      omega
    obtain ⟨hyy, hmm⟩ :=
      month_of_toDays hsowv d.year d.month h1 h2 hlo hhi
    refine ⟨_, rfl, ?_⟩
    have hstart : (getCurrentPeriod .weekly a).start = startOfWeekM a := rfl
    rw [hstart, monthly_path, monthly_path, hyy, hmm]

set_option maxRecDepth 40000 in
/-- Claim C3 counterexample: the round trip fails for the second child of the
2025 vision period (a yearly child whose parent is the 2028 vision, not the
2027 one) and for the first child of the February 2025 monthly period (the
week of 2025-01-27, whose parent is January's monthly period). -/
theorem parent_child_cex :
    (((getChildPeriods ⟨2025, 1, 1⟩ (getCurrentPeriod .vision ⟨2025, 1, 1⟩))[1]?.bind
        getParentPeriod).map periodToPath = some "vision/2028.md"
      ∧ periodToPath (getCurrentPeriod .vision ⟨2025, 1, 1⟩) = "vision/2027.md")
  ∧ (((getChildPeriods ⟨2025, 2, 1⟩ (getCurrentPeriod .monthly ⟨2025, 2, 1⟩))[0]?.bind
        getParentPeriod).map periodToPath = some "goals/2025/q1/january/monthly.md"
      ∧ periodToPath (getCurrentPeriod .monthly ⟨2025, 2, 1⟩)
          = "goals/2025/q1/february/monthly.md") := by
  decide

set_option maxRecDepth 40000 in
theorem parent_child_amended_witness :
    ∃ par, getParentPeriod (getCurrentPeriod .monthly ⟨2025, 4, 1⟩) = some par ∧
      periodToPath par = periodToPath (getCurrentPeriod .quarterly ⟨2025, 5, 20⟩) :=
  (parent_child_amended ⟨2025, 5, 20⟩ ⟨2025, 5, 20⟩ (by decide)).1 0
    (getCurrentPeriod .monthly ⟨2025, 4, 1⟩) (by decide)

/-! ## Focus-content parser and serializer (src/app/page.tsx)

`parseStructuredContent` (lines 716-836) scans the document line by line into
expectations and focus areas; `buildMarkdownContent` (lines 908-969,
structured branch) serializes the editing state back.  `label` stands for the
expectations heading the component computes from the period and frontmatter
(`Største målsætninger`, `{year} Største forventninger`,
`Q{quarter} Største forventninger`). -/

end NS
